import Mathlib

/-!
Verification development for the EmissionWiz forecasting core.

The Python scripts under scripts/ are shallowly embedded here:
* machine floats become exact rationals (ℚ); a missing value (NaN / KeyError)
  becomes `none : Option ℚ`, and the float rule "any arithmetic on NaN is NaN,
  any comparison with NaN is False" is modelled by `Option` propagation;
* `math.sin`/`math.cos`, `np.std` and the fitted scaler+Ridge predictor are
  real-valued computations whose outputs flow into features and records but
  never decide which rows are selected, which horizons halt, or which columns
  are usable.  They are bundled into an `Oracles` record and every theorem is
  quantified over all instantiations, so each theorem in particular holds for
  the true sin/cos/std/ridge functions;
* pandas `sort_values` (an unstable quicksort) is embedded as an insertion
  sort; all ordering-sensitive statements below are permutation statements,
  which hold for any correct sort;
* pandas `groupby` iterates groups in sorted key order; the embedding iterates
  the distinct keys in first-occurrence order.  No claim below depends on the
  iteration order of (country, cutoff) tasks.
-/

namespace EW

/-! ## Generic list helpers -/

/-- Insert into a Bool-ordered list (helper for the sort embedding). -/
def insLe {α : Type} (le : α → α → Bool) (a : α) : List α → List α
  | [] => [a]
  | b :: bs => if le a b then a :: b :: bs else b :: insLe le a bs

/-- Insertion sort; stands in for pandas `sort_values`. -/
def sortBy {α : Type} (le : α → α → Bool) (l : List α) : List α :=
  l.foldr (insLe le) []

/-- Arithmetic mean, `np.mean`; only ever applied under a positive-length
guard, mirroring the source where empty means never reach this code path. -/
def omean (l : List ℚ) : ℚ := l.sum / l.length

/-- Python `range(a, b)` over integers. -/
def intRange (a b : Int) : List Int :=
  (List.range (b - a).toNat).map (fun (i : Nat) => a + (i : Int))

/-- Forward fill, `Series.fillna(method="ffill")`. -/
def ffillFrom (last : Option ℚ) : List (Option ℚ) → List (Option ℚ)
  | [] => []
  | x :: xs =>
    match x with
    | some v => some v :: ffillFrom (some v) xs
    | none => last :: ffillFrom last xs

def ffill (l : List (Option ℚ)) : List (Option ℚ) := ffillFrom none l

/-- Backward fill, `Series.fillna(method="bfill")`. -/
def bfill (l : List (Option ℚ)) : List (Option ℚ) := (ffill l.reverse).reverse

/-- Python negative slice `l[-n:]`. -/
def takeLast {α : Type} (l : List α) (n : Nat) : List α := l.drop (l.length - n)

/-- Python negative index `l[-n]`, guarded by the caller with `n ≤ len(l)`;
the list elements are themselves optional values. -/
def negGet (l : List (Option ℚ)) (n : Nat) : Option ℚ :=
  ((l.get? (l.length - n)).join)

/-! ## TimeKey codec (`ym_to_key` / `key_to_ym`) -/

def ym_to_key (y m : Int) : Int := y * 12 + (m - 1)

def key_to_ym (k : Int) : Int × Int := (k / 12, k % 12 + 1)

/-! ## Data model: anomaly table and feature table rows -/

/-- One row of the anomaly/climatology table (`monthly_anomalies.csv`). -/
structure ARow where
  country : String
  year : Int
  month : Int
  temp_c : Option ℚ
  clim_temp_c : Option ℚ
  anomaly_c : Option ℚ
deriving DecidableEq

def keyOfA (r : ARow) : Int := ym_to_key r.year r.month

/-- Point lookup on the (country, TimeKey) index built by `build_lookup`;
`none` is the `KeyError` outcome. -/
def lookupA (anom : List ARow) (co : String) (k : Int) : Option ARow :=
  anom.find? (fun r => r.country == co && keyOfA r == k)

/-- One row of the feature table (`features_v1.csv`). -/
structure FRow where
  country : String
  year : Int
  month : Int
  temp_c : Option ℚ
  clim_temp_c : Option ℚ
  anomaly_c : Option ℚ
  mon_sin : ℚ
  mon_cos : ℚ
  anom_lag1 : Option ℚ
  anom_lag12 : Option ℚ
  anom_lag24 : Option ℚ
  roll_mean_3 : Option ℚ
  roll_std_3 : Option ℚ
  roll_mean_12 : Option ℚ
  target : Option ℚ
deriving DecidableEq

def keyOfF (r : FRow) : Int := ym_to_key r.year r.month

/-- The feature table together with which optional columns exist
(`anom_lag24`, `roll_mean_12` are dropped by `--drop_optional`). -/
structure FTable where
  rows : List FRow
  hasLag24 : Bool
  hasRoll12 : Bool
deriving DecidableEq

/-- Opaque real-valued computations of the scripts: calendar encodings
`sin(2*pi*m/12)` and `cos(2*pi*m/12)` (functions of the month only),
population standard deviation `np.std(-, ddof=0)`, and the fitted
StandardScaler+Ridge predictor produced by `fit_ridge_timeaware(X, y)`.
Their outputs never influence row selection or control flow; all theorems
quantify over every instantiation. -/
structure Oracles where
  msin : Int → ℚ
  mcos : Int → ℚ
  stdev : List ℚ → ℚ
  fit : List (List ℚ) → List ℚ → List ℚ → ℚ

/-! ## Phase 3: feature construction (`phase3_build_features.py`) -/

/-- Sort order used by `sort_values(["year","month"])`. -/
def ymLe (a b : ARow) : Bool :=
  decide (a.year < b.year) || (a.year == b.year && decide (a.month ≤ b.month))

/-- Positional `shift(n)` of the anomaly column at row index `i` of the
sorted per-country frame. -/
def olag (g : List ARow) (i n : Nat) : Option ℚ :=
  if n ≤ i then ((g.get? (i - n)).map (·.anomaly_c)).join else none

/-- The window feeding `shift(1).rolling(n, min_periods=n)` at row `i`:
original rows `i-n .. i-1`. -/
def lagWindow (g : List ARow) (i n : Nat) : List (Option ℚ) :=
  (List.range n).map (fun j => olag g i (n - j))

/-- Rolling window contents when `min_periods=n` is met, else `none` (NaN). -/
def rollOf (g : List ARow) (i n : Nat) : Option (List ℚ) :=
  let w := lagWindow g i n
  if w.all Option.isSome then some (w.filterMap id) else none

/-- Feature row built at index `i` of the sorted per-country frame `g` for
source row `r` (`add_calendar` + `add_persistence` + `add_target`). -/
def featAt (O : Oracles) (g : List ARow) (i : Nat) (r : ARow) : FRow :=
  { country := r.country, year := r.year, month := r.month,
    temp_c := r.temp_c, clim_temp_c := r.clim_temp_c, anomaly_c := r.anomaly_c,
    mon_sin := O.msin r.month, mon_cos := O.mcos r.month,
    anom_lag1 := olag g i 1, anom_lag12 := olag g i 12, anom_lag24 := olag g i 24,
    roll_mean_3 := (rollOf g i 3).map omean,
    roll_std_3 := (rollOf g i 3).map O.stdev,
    roll_mean_12 := (rollOf g i 12).map omean,
    target := ((g.get? (i + 1)).map (·.anomaly_c)).join }

/-- Placeholder row backing the index-based iteration below (never selected:
indices stay within bounds). -/
def dfltARow : ARow :=
  { country := "", year := 0, month := 0, temp_c := none, clim_temp_c := none,
    anomaly_c := none }

/-- Per-country feature frame (sort, then positional shifts). -/
def buildCountry (O : Oracles) (rows : List ARow) : List FRow :=
  let g := sortBy ymLe rows
  (List.range g.length).map (fun i => featAt O g i (g.getD i dfltARow))

/-- The `dropna(subset=core)` filter of phase 3. -/
def coreSome (r : FRow) : Bool :=
  r.anom_lag1.isSome && r.anom_lag12.isSome && r.roll_mean_3.isSome &&
    r.roll_std_3.isSome && r.target.isSome

/-- `phase3_build_features.main`: group by country, build features, drop rows
with a missing core feature or target. -/
def build_features (O : Oracles) (df : List ARow) (drop_optional : Bool) : FTable :=
  { rows := (((df.map (·.country)).dedup).map
      (fun co => buildCountry O (df.filter (fun r => r.country == co)))).flatten.filter coreSome,
    hasLag24 := !drop_optional,
    hasRoll12 := !drop_optional }

/-! ## Phase 4, recursive mode (`phase4_train_ridge.py`) -/

/-- The configuration knobs of `phase4_train_ridge.py` that the embedded code
reads (`alphas` is consumed only inside the opaque `Oracles.fit`). -/
structure Config where
  min_train_rows : Nat
  damping : ℚ
  clip_anom : ℚ
  blend_start : Int
  blend_stop : Int
  blend_max : ℚ

/-- One cutoff row with its `cutoff_key` column ensured. -/
structure Cut where
  cutoff_key : Int
  cutoff_ym : String
deriving DecidableEq

/-- The canonical feature columns of `select_features`. -/
inductive FCol
  | mon_sin | mon_cos | anom_lag1 | anom_lag12 | roll_mean_3 | roll_std_3
  | anom_lag24 | roll_mean_12
deriving DecidableEq

def getCol (r : FRow) : FCol → Option ℚ
  | .mon_sin => some r.mon_sin
  | .mon_cos => some r.mon_cos
  | .anom_lag1 => r.anom_lag1
  | .anom_lag12 => r.anom_lag12
  | .roll_mean_3 => r.roll_mean_3
  | .roll_std_3 => r.roll_std_3
  | .anom_lag24 => r.anom_lag24
  | .roll_mean_12 => r.roll_mean_12

/-- Whether a canonical column exists in the table (`c in df.columns`). -/
def colPresent (t : FTable) : FCol → Bool
  | .anom_lag24 => t.hasLag24
  | .roll_mean_12 => t.hasRoll12
  | _ => true

/-- `select_features`: the fixed six plus the optional columns that exist. -/
def select_features (t : FTable) : List FCol :=
  [.mon_sin, .mon_cos, .anom_lag1, .anom_lag12, .roll_mean_3, .roll_std_3]
    ++ (if t.hasLag24 then [.anom_lag24] else [])
    ++ (if t.hasRoll12 then [.roll_mean_12] else [])

/-- Sort order used by `dfc.sort_values("k")`. -/
def fkLe (a b : FRow) : Bool := decide (keyOfF a ≤ keyOfF b)

/-- The per-country frame `dfc`, sorted by TimeKey. -/
def dfcOf (t : FTable) (co : String) : List FRow :=
  sortBy fkLe (t.rows.filter (fun r => r.country == co))

/-- Recursive-mode eligible training rows: `dfc[dfc["k"] <= k_cut]`. -/
def trainEligible (t : FTable) (co : String) (k_cut : Int) : List FRow :=
  (dfcOf t co).filter (fun r => decide (keyOfF r ≤ k_cut))

/-- Per-task usable columns: drop any canonical column that is absent or has
a missing value within the current training rows. -/
def useColsOf (t : FTable) (train : List FRow) : List FCol :=
  (select_features t).filter
    (fun c => colPresent t c && train.all (fun r => (getCol r c).isSome))

/-- Recursive-mode final training rows: additionally
`dropna(subset=["target_anom_t_plus_1"])`. -/
def trainFinal (t : FTable) (co : String) (k_cut : Int) : List FRow :=
  (trainEligible t co k_cut).filter (fun r => r.target.isSome)

/-- The regression targets (the `y` vector) entering the recursive-mode fit. -/
def trainYv (t : FTable) (co : String) (k_cut : Int) : List (Option ℚ) :=
  (trainFinal t co k_cut).map (·.target)

/-- The history buffer seeded from the anomaly store over the 60 TimeKeys
ending at the cutoff, gaps filled forward then backward. -/
def seedHist (anom : List ARow) (co : String) (k_cut : Int) : List (Option ℚ) :=
  bfill (ffill ((intRange (k_cut - 59) (k_cut + 1)).map
    (fun kk => (lookupA anom co kk).bind (·.anomaly_c))))

/-- The per-horizon feature dictionary `x` built from the buffer state. -/
structure FeatVec where
  mon_sin : ℚ
  mon_cos : ℚ
  anom_lag1 : Option ℚ
  anom_lag12 : Option ℚ
  roll_mean_3 : Option ℚ
  roll_std_3 : Option ℚ
  anom_lag24 : Option ℚ
  roll_mean_12 : Option ℚ

/-- Build the feature dictionary from the buffer, as in the horizon loop. -/
def histVec (O : Oracles) (hist : List (Option ℚ)) (m_tgt : Int) : FeatVec :=
  let last3 := (takeLast hist 3).filterMap id
  let last12 := (takeLast hist 12).filterMap id
  { mon_sin := O.msin m_tgt, mon_cos := O.mcos m_tgt,
    anom_lag1 := if 1 ≤ hist.length then negGet hist 1 else none,
    anom_lag12 := if 12 ≤ hist.length then negGet hist 12 else none,
    roll_mean_3 := if last3.length == 3 then some (omean last3) else none,
    roll_std_3 := if last3.length == 3 then some (O.stdev last3) else none,
    anom_lag24 := if 24 ≤ hist.length then negGet hist 24 else none,
    roll_mean_12 := if last12.length == 12 then some (omean last12) else none }

def vecCol (v : FeatVec) : FCol → Option ℚ
  | .mon_sin => some v.mon_sin
  | .mon_cos => some v.mon_cos
  | .anom_lag1 => v.anom_lag1
  | .anom_lag12 => v.anom_lag12
  | .roll_mean_3 => v.roll_mean_3
  | .roll_std_3 => v.roll_std_3
  | .anom_lag24 => v.anom_lag24
  | .roll_mean_12 => v.roll_mean_12

/-- A forecast record (one output row). -/
structure Rec where
  country : String
  year : Int
  month : Int
  cutoff_ym : String
  horizon : Int
  pred_anom : ℚ
  pred_c : Option ℚ
  truth_c : Option ℚ
  model : String
deriving DecidableEq

/-- Climatology-blend ramp weight (`blend_weight(h, start, end, wmax)`). -/
def blend_weight (h start stop : Int) (wmax : ℚ) : ℚ :=
  if stop ≤ start || wmax ≤ 0 then 0
  else if h ≤ start then 0
  else if stop ≤ h then wmax
  else wmax * (((h - start : Int) : ℚ) / ((stop - start : Int) : ℚ))

/-- One iteration of the recursive horizon loop: `none` means the loop body
hit `break` (target row absent, or a missing feature field); `some` returns
the emitted record and the updated buffer. -/
def stepRec (O : Oracles) (cfg : Config) (anom : List ARow) (co : String)
    (cols : List FCol) (predict : List ℚ → ℚ) (cym : String) (k_cut : Int)
    (h : Nat) (hist : List (Option ℚ)) : Option (Rec × List (Option ℚ)) :=
  let k_tgt := k_cut + (h : Int)
  match lookupA anom co k_tgt with
  | none => none
  | some srow =>
    let m_tgt := (key_to_ym k_tgt).2
    let vec := cols.map (vecCol (histVec O hist m_tgt))
    if vec.any Option.isNone then none
    else
      let pred0 := predict (vec.map (fun o => o.getD 0))
      let pred := if 0 < cfg.clip_anom then
          min cfg.clip_anom (max (-cfg.clip_anom) pred0) else pred0
      let w := blend_weight (h : Int) cfg.blend_start cfg.blend_stop cfg.blend_max
      let rc : Rec :=
        { country := co, year := (key_to_ym k_tgt).1, month := m_tgt,
          cutoff_ym := cym, horizon := (h : Int), pred_anom := pred,
          pred_c := srow.clim_temp_c.map (fun c => c + (1 - w) * pred),
          truth_c := srow.temp_c, model := "ridge" }
      let damp := max 0 (min 1 cfg.damping)
      let hist2 := hist ++ [some (damp * pred)]
      some (rc, if 120 < hist2.length then hist2.drop (hist2.length - 120) else hist2)

/-- The horizon loop `for h in range(1, HMAX+1)` with `break` on failure. -/
def recLoop (O : Oracles) (cfg : Config) (anom : List ARow) (co : String)
    (cols : List FCol) (predict : List ℚ → ℚ) (cym : String) (k_cut : Int) :
    List Nat → List (Option ℚ) → List Rec
  | [], _ => []
  | h :: hs, hist =>
    match stepRec O cfg anom co cols predict cym k_cut h hist with
    | none => []
    | some (rc, hist2) => rc :: recLoop O cfg anom co cols predict cym k_cut hs hist2

/-- One (cutoff, country) task of `phase4_train_ridge.main`: eligibility
gates, per-task column selection, fit, then the recursive horizon loop. -/
def taskRows (O : Oracles) (cfg : Config) (t : FTable) (anom : List ARow)
    (HMAX : Nat) (cym : String) (k_cut : Int) (co : String) : List Rec :=
  let train0 := trainEligible t co k_cut
  if train0.length < cfg.min_train_rows then []
  else
    let cols := useColsOf t train0
    if cols.isEmpty then []
    else
      let tf := train0.filter (fun r => r.target.isSome)
      if tf.length < cfg.min_train_rows then []
      else
        let X := tf.map (fun r => cols.map (getCol r))
        let y := tf.map (·.target)
        if X.any (fun row => row.any Option.isNone) || y.any Option.isNone then []
        else
          let predict := O.fit (X.map (fun row => row.map (fun o => o.getD 0)))
            (y.map (fun o => o.getD 0))
          recLoop O cfg anom co cols predict cym k_cut
            (List.range' 1 HMAX) (seedHist anom co k_cut)

/-- Whether the task reaches `fit_ridge_timeaware` (a TrainedModel exists). -/
def taskFits (cfg : Config) (t : FTable) (co : String) (k_cut : Int) : Bool :=
  let train0 := trainEligible t co k_cut
  if train0.length < cfg.min_train_rows then false
  else
    let cols := useColsOf t train0
    if cols.isEmpty then false
    else
      let tf := train0.filter (fun r => r.target.isSome)
      if tf.length < cfg.min_train_rows then false
      else
        let X := tf.map (fun r => cols.map (getCol r))
        let y := tf.map (·.target)
        !(X.any (fun row => row.any Option.isNone) || y.any Option.isNone)

/-- The distinct countries iterated by `feat.groupby("country")`. -/
def countriesOf (t : FTable) : List String := (t.rows.map (·.country)).dedup

/-- `phase4_train_ridge.main`: all cutoffs, all countries, accumulated rows. -/
def mainForecasts (O : Oracles) (cfg : Config) (t : FTable) (anom : List ARow)
    (HMAX : Nat) (cuts : List Cut) : List Rec :=
  (cuts.map (fun cut => ((countriesOf t).map
    (fun co => taskRows O cfg t anom HMAX cut.cutoff_ym cut.cutoff_key co)).flatten)).flatten

/-! ## Phase 4, direct mid-horizon mode (`phase4_train_direct_mid.py`) -/

/-- Configuration of the direct-horizon trainer. -/
structure DCfg where
  h_start : Int
  h_end : Int
  min_train_rows : Nat

/-- Direct-mode eligible training rows: `dfc[dfc["k"] <= k_cut - h]`. -/
def dTrain0 (t : FTable) (co : String) (k_cut h : Int) : List FRow :=
  (dfcOf t co).filter (fun r => decide (keyOfF r ≤ k_cut - h))

/-- The direct target `targ_at`: the true anomaly at TimeKey `k + h`,
`none` on `KeyError` or a missing stored value. -/
def targAt (anom : List ARow) (co : String) (h k : Int) : Option ℚ :=
  (lookupA anom co (k + h)).bind (·.anomaly_c)

/-- Training rows joined to their direct target, rows with a missing target
dropped (`train["y_target"] = ...; train.dropna(subset=["y_target"])`). -/
def dTrainT (anom : List ARow) (t : FTable) (co : String) (k_cut h : Int) :
    List (FRow × ℚ) :=
  (dTrain0 t co k_cut h).filterMap
    (fun r => (targAt anom co h (keyOfF r)).map (fun v => (r, v)))

/-- One (cutoff, country, horizon) task of `phase4_train_direct_mid.main`.
The `np.isnan(y).any()` check of the source is omitted: `y` is produced by
the dropna just above it and contains no missing value by construction. -/
def dTaskRows (O : Oracles) (dcfg : DCfg) (t : FTable) (anom : List ARow)
    (cym : String) (k_cut h : Int) (co : String) : List Rec :=
  let train0 := dTrain0 t co k_cut h
  if train0.length < dcfg.min_train_rows then []
  else
    let cols := useColsOf t train0
    if cols.isEmpty then []
    else
      let tt := dTrainT anom t co k_cut h
      if tt.length < dcfg.min_train_rows then []
      else
        let X := tt.map (fun p => cols.map (getCol p.1))
        if X.any (fun row => row.any Option.isNone) then []
        else
          let predict := O.fit (X.map (fun row => row.map (fun o => o.getD 0)))
            (tt.map (·.2))
          let k_tgt := k_cut + h
          match lookupA anom co k_tgt with
          | none => []
          | some srow =>
            match ((dfcOf t co).filter (fun r => keyOfF r == k_cut)).head? with
            | none => []
            | some xr =>
              let x := cols.map (getCol xr)
              if x.any Option.isNone then []
              else
                let pred := predict (x.map (fun o => o.getD 0))
                [{ country := co, year := (key_to_ym k_tgt).1,
                   month := (key_to_ym k_tgt).2, cutoff_ym := cym,
                   horizon := h, pred_anom := pred,
                   pred_c := srow.clim_temp_c.map (fun c => pred + c),
                   truth_c := srow.temp_c, model := "ridge_direct" }]

/-- All direct mid-horizon rows (`mid`), over
`for h in range(cfg.h_start, min(cfg.h_end, HMAX)+1)`. -/
def directRows (O : Oracles) (dcfg : DCfg) (t : FTable) (anom : List ARow)
    (HMAX : Nat) (cuts : List Cut) : List Rec :=
  (cuts.map (fun cut => ((countriesOf t).map (fun co =>
    ((intRange dcfg.h_start (min dcfg.h_end (HMAX : Int) + 1)).map
      (fun h => dTaskRows O dcfg t anom cut.cutoff_ym cut.cutoff_key h co)).flatten)).flatten)).flatten

/-- Lexicographic codepoint order on strings (Python string comparison). -/
def charsLe : List Char → List Char → Bool
  | [], _ => true
  | _ :: _, [] => false
  | a :: as, b :: bs =>
    if a.val < b.val then true else if b.val < a.val then false else charsLe as bs

def strLe (a b : String) : Bool := charsLe a.data b.data

/-- The `sort_values(keycols)` order on forecast records,
keycols = country, year, month, cutoff_ym, horizon. -/
def recLe (a b : Rec) : Bool :=
  if a.country ≠ b.country then strLe a.country b.country
  else if a.year ≠ b.year then decide (a.year ≤ b.year)
  else if a.month ≠ b.month then decide (a.month ≤ b.month)
  else if a.cutoff_ym ≠ b.cutoff_ym then strLe a.cutoff_ym b.cutoff_ym
  else decide (a.horizon ≤ b.horizon)

/-- The merge of direct output into a base forecast table: keep base rows
outside the `[h_start, h_end]` band, append the direct rows, sort by the
key columns. -/
def mergeForecasts (dcfg : DCfg) (base mid : List Rec) : List Rec :=
  sortBy recLe
    ((base.filter
      (fun r => decide (r.horizon < dcfg.h_start) || decide (dcfg.h_end < r.horizon))) ++ mid)

/-! ## Phase 4, baseline blending (`phase4_blend_with_baselines.py`) -/

/-- A horizon bucket from the setup configuration. -/
structure Bucket where
  name : String
  h_start : Int
  h_end : Int
deriving DecidableEq

/-- `bucket_name`: the first bucket whose range contains `h`, else "h_na". -/
def bucket_name (h : Int) (bs : List Bucket) : String :=
  match bs.find? (fun b => decide (b.h_start ≤ h) && decide (h ≤ b.h_end)) with
  | some b => b.name
  | none => "h_na"

/-- One row of the joined model+baseline frame `df` (the model forecasts
left-joined to both baseline tables on the key columns; the join keeps every
model row and leaves a missing baseline prediction as NaN). -/
structure BRow where
  country : String
  year : Int
  month : Int
  cutoff_ym : String
  horizon : Int
  pred_c : Option ℚ
  truth_c : Option ℚ
  pred_c_clim : Option ℚ
  pred_c_lag12 : Option ℚ
deriving DecidableEq

/-- Per-row best baseline `pred_c_base` (lines 44-51 of the source, the
branch where the truth column exists; a row's own truth may still be NaN).
With truth known and both baselines present, the baseline with smaller
absolute error wins (ties to climatology, `ae_clim <= ae_lag12`); otherwise
climatology is preferred when present, else lag-12. -/
def pred_c_base (r : BRow) : Option ℚ :=
  match r.truth_c with
  | some tr =>
    match r.pred_c_clim, r.pred_c_lag12 with
    | some c, some l => some (if |c - tr| ≤ |l - tr| then c else l)
    | some c, none => some c
    | none, o => o
  | none =>
    match r.pred_c_clim with
    | some c => some c
    | none => r.pred_c_lag12

/-- `np.linspace(a, b, num=n)` (exact in ℚ, endpoint included). -/
def linspace (a b : ℚ) (n : Nat) : List ℚ :=
  if n = 0 then []
  else if n = 1 then [a]
  else (List.range n).map (fun (i : Nat) => a + ((i : ℚ) * (b - a)) / ((n : ℚ) - 1))

/-- The rows of the weight search for bucket `name`:
`df[(df["bucket"]==name) & (df["pred_c_base"].notna())]`. -/
def subFor (df : List BRow) (bs : List Bucket) (name : String) : List BRow :=
  df.filter (fun r => bucket_name r.horizon bs == name && (pred_c_base r).isSome)

/-- Squared blended error of one row at weight `w`; `none` is float NaN. -/
def sqErrAt (w : ℚ) (r : BRow) : Option ℚ := do
  let y ← r.truth_c
  let p ← r.pred_c
  let b ← pred_c_base r
  pure (((1 - w) * p + w * b - y) ^ 2)

/-- Numpy all-or-nothing NaN propagation for a list of values: `none` as
soon as one entry is `none`. -/
def optAll : List (Option ℚ) → Option (List ℚ)
  | [] => some []
  | none :: _ => none
  | some v :: xs => (optAll xs).map (fun l => v :: l)

/-- Grid-point RMSE `sqrt(mean((p - y)**2))` over the searched rows; `none`
is float NaN (some searched row had a NaN truth, model or baseline value;
`np.mean` does not skip NaN).  The square root is the opaque parameter `sq`;
the theorems about the search compare these values directly, exactly as the
loop does. -/
def rmseAt (sq : ℚ → ℚ) (sub : List BRow) (w : ℚ) : Option ℚ :=
  (optAll (sub.map (sqErrAt w))).map (fun l => sq (omean l))

/-- Float `<` with NaN on the left and +inf on the right both encoded as
`none`: NaN compares False, any finite value is below +inf. -/
def optLtB : Option ℚ → Option ℚ → Bool
  | none, _ => false
  | some _, none => true
  | some r, some b => decide (r < b)

/-- The grid search loop: start from `(0.0, inf)`, update on strictly
smaller RMSE (so the first minimum in grid order wins ties). -/
def searchW (sq : ℚ → ℚ) (sub : List BRow) (g : List ℚ) : ℚ × Option ℚ :=
  g.foldl (fun best w =>
    let rm := rmseAt sq sub w
    if optLtB rm best.2 then (w, rm) else best) (0, none)

/-- The selected weight for one targeted bucket (`best_w[name]`). -/
def bestWFor (sq : ℚ → ℚ) (df : List BRow) (bs : List Bucket)
    (wmin wmax : ℚ) (steps : Nat) (name : String) : ℚ :=
  let sub := subFor df bs name
  if sub.isEmpty then 0 else (searchW sq sub (linspace wmin wmax steps)).1

/-- Modelled from the spec: the weight search as the specification words it,
"over rows in that bucket with both truth and a best-baseline value" — rows
lacking a truth value are excluded before the grid search.  Used only to
compare the code's behaviour against the claimed one. -/
def subForSpec (df : List BRow) (bs : List Bucket) (name : String) : List BRow :=
  df.filter (fun r =>
    bucket_name r.horizon bs == name && r.truth_c.isSome && (pred_c_base r).isSome)

/-- Modelled from the spec: weight selection over `subForSpec`. -/
def bestWForSpec (sq : ℚ → ℚ) (df : List BRow) (bs : List Bucket)
    (wmin wmax : ℚ) (steps : Nat) (name : String) : ℚ :=
  let sub := subForSpec df bs name
  if sub.isEmpty then 0 else (searchW sq sub (linspace wmin wmax steps)).1

/-! ## Phase 4, metrics (`phase4_metrics.py`) -/

/-- One forecast row as the metrics script reads it. -/
structure MRow where
  country : String
  horizon : Int
  pred_c : Option ℚ
  truth_c : Option ℚ
deriving DecidableEq

/-- Absolute error column `ae`; NaN when prediction or truth is NaN. -/
def aeOf (r : MRow) : Option ℚ := do
  pure |(← r.pred_c) - (← r.truth_c)|

/-- Squared error column `se`. -/
def seOf (r : MRow) : Option ℚ := do
  pure (((← r.pred_c) - (← r.truth_c)) ^ 2)

/-- The (country, bucket) group keys of `groupby(["country","bucket"])`. -/
def groupKeys (bs : List Bucket) (m : List MRow) : List (String × String) :=
  (m.map (fun r => (r.country, bucket_name r.horizon bs))).dedup

/-- The rows of one (country, bucket) group. -/
def groupRows (bs : List Bucket) (m : List MRow) (c b : String) : List MRow :=
  m.filter (fun r => r.country == c && bucket_name r.horizon bs == b)

/-- Pandas NaN-skipping mean: ignore missing values, NaN if none remain. -/
def skipMean (l : List (Option ℚ)) : Option ℚ :=
  let v := l.filterMap id
  if v.isEmpty then none else some (omean v)

/-- Per-(country, bucket) MAE: `agg(MAE=("ae","mean"))` (skipna mean). -/
def statMAE (bs : List Bucket) (m : List MRow) (c b : String) : Option ℚ :=
  skipMean ((groupRows bs m c b).map aeOf)

/-- Per-(country, bucket) RMSE: `sqrt(se.mean())` (skipna mean, opaque
square root `sq`). -/
def statRMSE (sq : ℚ → ℚ) (bs : List Bucket) (m : List MRow) (c b : String) :
    Option ℚ :=
  (skipMean ((groupRows bs m c b).map seOf)).map sq

/-- The countries having a (country, bucket) group for bucket `b`. -/
def bucketCountries (bs : List Bucket) (m : List MRow) (b : String) : List String :=
  (groupKeys bs m).filterMap (fun p => if p.2 == b then some p.1 else none)

/-- Global per-bucket MAE: skipna mean of the per-country MAE column. -/
def globalMAE (bs : List Bucket) (m : List MRow) (b : String) : Option ℚ :=
  skipMean ((bucketCountries bs m b).map (fun c => statMAE bs m c b))

/-- Global per-bucket RMSE: skipna mean of the per-country RMSE column. -/
def globalRMSE (sq : ℚ → ℚ) (bs : List Bucket) (m : List MRow) (b : String) :
    Option ℚ :=
  skipMean ((bucketCountries bs m b).map (fun c => statRMSE sq bs m c b))

/-! ## Theorems -/

/-! ### Helper lemmas about the ramp weight -/

/-! ### Concrete example inputs and proof-side views used by the theorems below -/

def selLoop (f : ℚ → ℚ) : List ℚ → ℚ → ℚ
  | [], wb => wb
  | w :: g, wb => if f w < f wb then selLoop f g w else selLoop f g wb

/-- The defined RMSE value at a grid point (coincides with `rmseAt` whenever
the latter is `some`). -/

def rmQ (sq : ℚ → ℚ) (sub : List BRow) (w : ℚ) : ℚ :=
  (rmseAt sq sub w).getD 0

def exBuckets : List Bucket := [{ name := "h07_12", h_start := 7, h_end := 12 }]

def exRowA : BRow :=
  { country := "X", year := 2020, month := 1, cutoff_ym := "2019-12", horizon := 7,
    pred_c := some 10, truth_c := some 0, pred_c_clim := some 0, pred_c_lag12 := none }

def exRowB : BRow :=
  { country := "X", year := 2020, month := 2, cutoff_ym := "2019-12", horizon := 8,
    pred_c := some 5, truth_c := none, pred_c_clim := some 1, pred_c_lag12 := none }

/-- C5 counterexample.  In a bucket holding a row with a baseline but no
truth value, the code's search set contains that truth-less row (the claim
says it is excluded), and the selection diverges from the claimed
procedure: every grid RMSE is NaN, so the loop never updates its
`(0.0, inf)` initial state and returns weight 0, while the search the claim
describes (truth-less rows excluded) returns the grid weight 1. -/

def exMRows : List MRow :=
  [{ country := "X", horizon := 7, pred_c := some 2, truth_c := some 2 },
   { country := "X", horizon := 8, pred_c := some 3, truth_c := some 1 }]

/-- C9 witness at a concrete one-country table. -/

def exO : Oracles :=
  { msin := fun _ => 0, mcos := fun _ => 0, stdev := fun _ => 0,
    fit := fun _ _ _ => 1 }

def exCfg0 : Config :=
  { min_train_rows := 0, damping := 1, clip_anom := 0,
    blend_start := 0, blend_stop := 0, blend_max := 0 }

def exFRow : FRow :=
  { country := "A", year := 2, month := 1, temp_c := some 0, clim_temp_c := some 0,
    anomaly_c := some 0, mon_sin := 0, mon_cos := 0, anom_lag1 := some 0,
    anom_lag12 := some 0, anom_lag24 := some 0, roll_mean_3 := some 0,
    roll_std_3 := some 0, roll_mean_12 := some 0, target := some 0 }

def exT : FTable := { rows := [exFRow], hasLag24 := false, hasRoll12 := false }

def exCut : Cut := { cutoff_key := 24, cutoff_ym := "0002-01" }

/-- C2 witness: a one-task run over an empty Series Store. -/

def exCfg8 : Config :=
  { min_train_rows := 120, damping := 1, clip_anom := 0,
    blend_start := 0, blend_stop := 0, blend_max := 0 }

/-- C8 witness: one eligible row against a floor of 120. -/

def exCfg3 : Config :=
  { min_train_rows := 0, damping := 9/10, clip_anom := 0,
    blend_start := 0, blend_stop := 0, blend_max := 0 }

def exAnomB : List ARow :=
  [{ country := "A", year := 0, month := 2, temp_c := none, clim_temp_c := none,
     anomaly_c := none }]

def exRc3 : Rec :=
  { country := "A", year := 0, month := 2, cutoff_ym := "c", horizon := 1,
    pred_anom := 1, pred_c := none, truth_c := none, model := "ridge" }

/-- C3 witness: one concrete horizon-1 step with damping 0.9. -/

def exARow4 : ARow :=
  { country := "A", year := 2, month := 4, temp_c := none, clim_temp_c := none,
    anomaly_c := some 5 }

/-- C4 witness: one eligible row, horizon 3, target found at TimeKey + 3. -/

def exDCfg : DCfg := { h_start := 7, h_end := 24, min_train_rows := 120 }

def exBaseRec : Rec :=
  { country := "A", year := 2, month := 2, cutoff_ym := "0002-01", horizon := 1,
    pred_anom := 0, pred_c := some 1, truth_c := some 1, model := "ridge" }

/-- C7 witness: a one-row base table and an empty direct band. -/

def mkRow (co : String) (k0 : Int) (vals : List (Option ℚ)) (i : Nat) : ARow :=
  { country := co, year := (key_to_ym (k0 + (i : Int))).1,
    month := (key_to_ym (k0 + (i : Int))).2,
    temp_c := none, clim_temp_c := none, anomaly_c := vals.getD i none }

/-- A gap-free single-country anomaly series: one row per consecutive
TimeKey `k0, k0+1, ...`, carrying the given anomaly values. -/

def mkSeries (co : String) (k0 : Int) (vals : List (Option ℚ)) : List ARow :=
  (List.range vals.length).map (mkRow co k0 vals)

/-- The stored anomaly of the gap-free series at TimeKey `k`. -/

def valAt (vals : List (Option ℚ)) (k0 k : Int) : Option ℚ :=
  if 0 ≤ k - k0 ∧ k - k0 < (vals.length : Int) then vals.getD (k - k0).toNat none
  else none

/-- The rolling window of series values at TimeKeys `k-n .. k-1`, defined
when every one of them is present. -/

def specWin (vals : List (Option ℚ)) (k0 k : Int) (n : Nat) : Option (List ℚ) :=
  let w := (List.range n).map (fun (j : Nat) => valAt vals k0 (k - (n : Int) + (j : Int)))
  if w.all Option.isSome then some (w.filterMap id) else none

def exVals1 : List (Option ℚ) :=
  [some 0, some 0, some 0, some 0, some 0, some 0, some 0, some 0, some 0,
   some 0, some 0, some 0, some 0, some 5]

def exVals2 : List (Option ℚ) :=
  [some 0, some 0, some 0, some 0, some 0, some 0, some 0, some 0, some 0,
   some 0, some 0, some 0, some 0, some 7]

/-- C1 counterexample.  Two gap-free series agreeing on every stored value
at TimeKey ≤ 12 (the cutoff) but differing at TimeKey 13 produce different
regression-target vectors for the cutoff-12 recursive fit: the training row
at TimeKey 12 carries the anomaly at TimeKey 13 as its target, so
information from past the cutoff enters the fit, contradicting the claim
that every regression-target value derives from TimeKeys ≤ cutoff. -/

theorem bw_disabled {start stop : Int} {wmax : ℚ} (h : Int)
    (hd : stop ≤ start ∨ wmax ≤ 0) : blend_weight h start stop wmax = 0 := by
  have hg : (decide (stop ≤ start) || decide (wmax ≤ 0)) = true := by
    rcases hd with hd | hd <;> simp [hd]
  unfold blend_weight
  simp [hg]

theorem bw_low {start stop : Int} {wmax : ℚ} {h : Int}
    (hh : h ≤ start) : blend_weight h start stop wmax = 0 := by
  unfold blend_weight
  split_ifs <;> rfl

theorem bw_high {start stop : Int} {wmax : ℚ} {h : Int} (hss : start < stop)
    (hw : 0 < wmax) (hh : stop ≤ h) : blend_weight h start stop wmax = wmax := by
  unfold blend_weight
  split_ifs with h1 h2
  · simp only [Bool.or_eq_true, decide_eq_true_eq] at h1
    rcases h1 with hd | hd
    · exact absurd hss (not_lt.mpr hd)
    · exact absurd hw (not_lt.mpr hd)
  · exact absurd (lt_of_lt_of_le hss hh) (not_lt.mpr h2)
  · rfl

theorem bw_mid {start stop : Int} {wmax : ℚ} {h : Int} (hss : start < stop)
    (hw : 0 < wmax) (hl : start < h) (hr : h < stop) :
    blend_weight h start stop wmax =
      wmax * (((h - start : Int) : ℚ) / ((stop - start : Int) : ℚ)) := by
  unfold blend_weight
  split_ifs with h1 h2 h3
  · simp only [Bool.or_eq_true, decide_eq_true_eq] at h1
    rcases h1 with hd | hd
    · exact absurd hss (not_lt.mpr hd)
    · exact absurd hw (not_lt.mpr hd)
  · exact absurd hl (not_lt.mpr h2)
  · exact absurd hr (not_lt.mpr h3)
  · rfl

theorem bw_bounds (start stop : Int) {wmax : ℚ} (h : Int) (hw : 0 ≤ wmax) :
    0 ≤ blend_weight h start stop wmax ∧ blend_weight h start stop wmax ≤ wmax := by
  rcases eq_or_lt_of_le hw with hw0 | hwpos
  · rw [bw_disabled h (Or.inr (le_of_eq hw0.symm))]
    exact ⟨le_refl 0, hw⟩
  by_cases hss : stop ≤ start
  · rw [bw_disabled h (Or.inl hss)]
    exact ⟨le_refl 0, hw⟩
  push_neg at hss
  by_cases hlo : h ≤ start
  · rw [bw_low hlo]; exact ⟨le_refl 0, hw⟩
  by_cases hhi : stop ≤ h
  · rw [bw_high hss hwpos hhi]; exact ⟨hw, le_refl wmax⟩
  push_neg at hlo hhi
  rw [bw_mid hss hwpos hlo hhi]
  have hd : (0 : ℚ) < ((stop - start : Int) : ℚ) := by exact_mod_cast sub_pos.mpr hss
  have hn : (0 : ℚ) < ((h - start : Int) : ℚ) := by exact_mod_cast sub_pos.mpr hlo
  have hnd : ((h - start : Int) : ℚ) ≤ ((stop - start : Int) : ℚ) := by
    exact_mod_cast sub_le_sub_right (le_of_lt hhi) start
  constructor
  · positivity
  · calc wmax * (((h - start : Int) : ℚ) / ((stop - start : Int) : ℚ))
        ≤ wmax * 1 := mul_le_mul_of_nonneg_left ((div_le_one hd).mpr hnd) hw
    _ = wmax := mul_one wmax

theorem bw_mono (start stop : Int) {wmax : ℚ} {h h2 : Int} (hle : h ≤ h2) :
    blend_weight h start stop wmax ≤ blend_weight h2 start stop wmax := by
  by_cases hdis : stop ≤ start ∨ wmax ≤ 0
  · rw [bw_disabled h hdis, bw_disabled h2 hdis]
  push_neg at hdis
  have hss : start < stop := hdis.1
  have hw : 0 < wmax := hdis.2
  have hw0 : 0 ≤ wmax := le_of_lt hw
  by_cases hlo : h ≤ start
  · rw [bw_low hlo]; exact (bw_bounds start stop h2 hw0).1
  by_cases hhi : stop ≤ h
  · rw [bw_high hss hw hhi, bw_high hss hw (le_trans hhi hle)]
  push_neg at hlo hhi
  rw [bw_mid hss hw hlo hhi]
  by_cases hhi2 : stop ≤ h2
  · rw [bw_high hss hw hhi2]
    have := (bw_bounds start stop h hw0).2
    rwa [bw_mid hss hw hlo hhi] at this
  push_neg at hhi2
  rw [bw_mid hss hw (lt_of_lt_of_le hlo hle) hhi2]
  have hd : (0 : ℚ) < ((stop - start : Int) : ℚ) := by exact_mod_cast sub_pos.mpr hss
  have hnum : ((h - start : Int) : ℚ) ≤ ((h2 - start : Int) : ℚ) := by
    exact_mod_cast sub_le_sub_right hle start
  exact mul_le_mul_of_nonneg_left ((div_le_div_iff_of_pos_right hd).mpr hnum) hw0

/-- C10.  The climatology ramp weight: 0 under the all-zero/disabled
configuration (`end <= start or wmax <= 0`), 0 up to the start horizon,
`wmax` from the end horizon on, always inside `[0, wmax]` when `wmax ≥ 0`,
and monotone nondecreasing in the horizon. -/
theorem C10_blend_weight_ramp (h start stop : Int) (wmax : ℚ) :
    ((stop ≤ start ∨ wmax ≤ 0) → blend_weight h start stop wmax = 0) ∧
    (start < stop → 0 < wmax → h ≤ start → blend_weight h start stop wmax = 0) ∧
    (start < stop → 0 < wmax → stop ≤ h → blend_weight h start stop wmax = wmax) ∧
    (0 ≤ wmax → 0 ≤ blend_weight h start stop wmax ∧
      blend_weight h start stop wmax ≤ wmax) ∧
    (∀ h2 : Int, h ≤ h2 →
      blend_weight h start stop wmax ≤ blend_weight h2 start stop wmax) := by
  refine ⟨bw_disabled h, ?_, ?_, bw_bounds start stop h, ?_⟩
  · intro _ _ hh
    exact bw_low hh
  · intro hss hw hh
    exact bw_high hss hw hh
  · intro h2 hle
    exact bw_mono start stop hle

/-- C10 witness at a concrete configuration. -/
theorem C10_blend_weight_ramp_witness :
    0 ≤ blend_weight 3 0 6 (1/2) ∧ blend_weight 3 0 6 (1/2) ≤ 1/2 ∧
    blend_weight 7 0 6 (1/2) = 1/2 ∧
    blend_weight 3 0 6 (1/2) ≤ blend_weight 4 0 6 (1/2) := by
  obtain ⟨-, -, -, c4, c5⟩ := C10_blend_weight_ramp 3 0 6 (1/2)
  obtain ⟨-, -, d3, -, -⟩ := C10_blend_weight_ramp 7 0 6 (1/2)
  exact ⟨(c4 (by norm_num)).1, (c4 (by norm_num)).2,
    d3 (by norm_num) (by norm_num) (by norm_num), c5 4 (by norm_num)⟩

/-! ### Helper lemmas about the blend weight search -/

/-- Proof-side view of the grid-search loop once every RMSE is defined:
keep the incumbent unless the candidate is strictly smaller. -/
theorem sqErrAt_isSome {w : ℚ} {r : BRow} (ht : r.truth_c.isSome)
    (hp : r.pred_c.isSome) (hb : (pred_c_base r).isSome) :
    (sqErrAt w r).isSome := by
  rcases Option.isSome_iff_exists.mp ht with ⟨y, hy⟩
  rcases Option.isSome_iff_exists.mp hp with ⟨p, hpe⟩
  rcases Option.isSome_iff_exists.mp hb with ⟨b, hbe⟩
  simp [sqErrAt, hy, hpe, hbe]

theorem mapM_sqErr_some {w : ℚ} : ∀ {sub : List BRow},
    (∀ r ∈ sub, (sqErrAt w r).isSome) →
    optAll (sub.map (sqErrAt w)) = some (sub.map (fun r => (sqErrAt w r).getD 0)) := by
  intro sub
  induction sub with
  | nil => intro _; rfl
  | cons a l ih =>
    intro hall
    have ha := hall a (List.mem_cons_self a l)
    rcases Option.isSome_iff_exists.mp ha with ⟨v, hv⟩
    have hl := ih (fun r hr => hall r (List.mem_cons_of_mem a hr))
    simp [optAll, hv, hl]

theorem rmseAt_some {sq : ℚ → ℚ} {sub : List BRow} {w : ℚ}
    (hok : ∀ r ∈ sub, r.truth_c.isSome ∧ r.pred_c.isSome ∧ (pred_c_base r).isSome) :
    rmseAt sq sub w = some (rmQ sq sub w) := by
  have hall : ∀ r ∈ sub, (sqErrAt w r).isSome := fun r hr =>
    sqErrAt_isSome (hok r hr).1 (hok r hr).2.1 (hok r hr).2.2
  unfold rmQ rmseAt
  rw [mapM_sqErr_some hall]
  rfl

/-- The fold of `searchW`, started after the first grid point has replaced
the `(0.0, inf)` initial state, computes `selLoop`. -/
theorem searchW_foldl_eq (sq : ℚ → ℚ) (sub : List BRow)
    (hok : ∀ r ∈ sub, r.truth_c.isSome ∧ r.pred_c.isSome ∧ (pred_c_base r).isSome) :
    ∀ (g : List ℚ) (wb : ℚ),
      g.foldl (fun best w =>
        let rm := rmseAt sq sub w
        if optLtB rm best.2 then (w, rm) else best) (wb, rmseAt sq sub wb) =
      (selLoop (rmQ sq sub) g wb, rmseAt sq sub (selLoop (rmQ sq sub) g wb)) := by
  intro g
  induction g with
  | nil => intro wb; rfl
  | cons w g2 ih =>
    intro wb
    have hw := @rmseAt_some sq sub w hok
    have hwb := @rmseAt_some sq sub wb hok
    by_cases hlt : rmQ sq sub w < rmQ sq sub wb
    · have hb : optLtB (rmseAt sq sub w) (rmseAt sq sub wb) = true := by
        rw [hw, hwb]; simp [optLtB, hlt]
      simp only [List.foldl_cons, hb, if_true, selLoop, hlt]
      exact ih w
    · have hb : optLtB (rmseAt sq sub w) (rmseAt sq sub wb) = false := by
        rw [hw, hwb]; simp [optLtB, hlt]
      simp only [List.foldl_cons, hb, if_false, Bool.false_eq_true, selLoop, hlt]
      exact ih wb

/-- `searchW` over a nonempty grid with all RMSEs defined equals `selLoop`
seeded at the first grid point. -/
theorem searchW_eq (sq : ℚ → ℚ) (sub : List BRow)
    (hok : ∀ r ∈ sub, r.truth_c.isSome ∧ r.pred_c.isSome ∧ (pred_c_base r).isSome)
    (w0 : ℚ) (g : List ℚ) :
    searchW sq sub (w0 :: g) =
      (selLoop (rmQ sq sub) g w0, rmseAt sq sub (selLoop (rmQ sq sub) g w0)) := by
  have hw0 := @rmseAt_some sq sub w0 hok
  unfold searchW
  have hstep : optLtB (rmseAt sq sub w0) none = true := by
    rw [hw0]; rfl
  simp only [List.foldl_cons, hstep, if_true]
  exact searchW_foldl_eq sq sub hok g w0

/-- The loop never ends on a value strictly worse than its seed. -/
theorem selLoop_le_seed (f : ℚ → ℚ) :
    ∀ (g : List ℚ) (wb : ℚ), f (selLoop f g wb) ≤ f wb := by
  intro g
  induction g with
  | nil => intro wb; exact le_refl _
  | cons w g2 ih =>
    intro wb
    by_cases hlt : f w < f wb
    · simp only [selLoop, hlt, if_true]
      exact le_of_lt (lt_of_le_of_lt (ih w) hlt)
    · simp only [selLoop, hlt, if_false]
      exact ih wb

/-- `selLoop` returns the first element (in traversal order) attaining the
minimum of `f` over the seed followed by the grid tail. -/
theorem selLoop_split (f : ℚ → ℚ) :
    ∀ (g : List ℚ) (wb : ℚ), ∃ pre post,
      wb :: g = pre ++ selLoop f g wb :: post ∧
      (∀ w ∈ pre, f (selLoop f g wb) < f w) ∧
      (∀ w ∈ post, f (selLoop f g wb) ≤ f w) := by
  intro g
  induction g with
  | nil =>
    intro wb
    exact ⟨[], [], rfl, by simp, by simp⟩
  | cons w g2 ih =>
    intro wb
    by_cases hlt : f w < f wb
    · rcases ih w with ⟨pre, post, hsplit, hpre, hpost⟩
      have hsel : selLoop f (w :: g2) wb = selLoop f g2 w := by
        simp [selLoop, hlt]
      rw [hsel]
      refine ⟨wb :: pre, post, ?_, ?_, ?_⟩
      · simpa using congrArg (List.cons wb) hsplit
      · intro u hu
        rcases List.mem_cons.mp hu with rfl | hu2
        · exact lt_of_le_of_lt (selLoop_le_seed f g2 w) hlt
        · exact hpre u hu2
      · intro u hu
        exact hpost u hu
    · rcases ih wb with ⟨pre, post, hsplit, hpre, hpost⟩
      have hsel : selLoop f (w :: g2) wb = selLoop f g2 wb := by
        simp [selLoop, hlt]
      rw [hsel]
      push_neg at hlt
      cases pre with
      | nil =>
        have hwb : wb = selLoop f g2 wb := (List.cons.injEq _ _ _ _).mp hsplit |>.1
        have hg2 : g2 = post := (List.cons.injEq _ _ _ _).mp hsplit |>.2
        refine ⟨[], w :: g2, by rw [← hwb]; rfl, by simp, ?_⟩
        intro u hu
        rcases List.mem_cons.mp hu with rfl | hu2
        · rw [← hwb]; exact hlt
        · rw [hg2] at hu2
          exact hpost u hu2
      | cons p pre2 =>
        have hp : p = wb := ((List.cons.injEq _ _ _ _).mp hsplit).1.symm
        have hg2 : g2 = pre2 ++ selLoop f g2 wb :: post :=
          ((List.cons.injEq _ _ _ _).mp hsplit).2
        have hselwb : f (selLoop f g2 wb) < f wb := by
          have := hpre p (List.mem_cons_self p pre2)
          rwa [hp] at this
        refine ⟨wb :: w :: pre2, post, ?_, ?_, ?_⟩
        · simp only [List.cons_append]
          rw [← hg2]
        · intro u hu
          rcases List.mem_cons.mp hu with rfl | hu2
          · exact hselwb
          · rcases List.mem_cons.mp hu2 with rfl | hu3
            · exact lt_of_lt_of_le hselwb hlt
            · exact hpre u (by rw [hp]; exact List.mem_cons_of_mem wb hu3)
        · intro u hu
          exact hpost u hu

theorem linspace_ne_nil {a b : ℚ} {n : Nat} (hn : 1 ≤ n) : linspace a b n ≠ [] := by
  match n, hn with
  | 1, _ => simp [linspace]
  | (m + 2), _ =>
    simp only [linspace, if_neg (by omega : ¬ m + 2 = 0), if_neg (by omega : ¬ m + 2 = 1),
      ne_eq, List.map_eq_nil_iff, List.range_eq_nil]
    omega

theorem linspace_mem_bounds {a b w : ℚ} {n : Nat} (hab : a ≤ b)
    (hw : w ∈ linspace a b n) : a ≤ w ∧ w ≤ b := by
  match n with
  | 0 => simp [linspace] at hw
  | 1 =>
    simp [linspace] at hw
    subst hw
    exact ⟨le_refl _, hab⟩
  | (m + 2) =>
    simp only [linspace, if_neg (by omega : ¬ m + 2 = 0), if_neg (by omega : ¬ m + 2 = 1),
      List.mem_map, List.mem_range] at hw
    obtain ⟨i, hi, rfl⟩ := hw
    have hd : (0 : ℚ) < ((m + 2 : Nat) : ℚ) - 1 := by push_cast; linarith
    have hba : (0 : ℚ) ≤ b - a := sub_nonneg.mpr hab
    constructor
    · have h0 : 0 ≤ (i : ℚ) * (b - a) / (((m + 2 : Nat) : ℚ) - 1) :=
        div_nonneg (mul_nonneg (by positivity) hba) (le_of_lt hd)
      linarith
    · have hile : (i : ℚ) ≤ ((m + 2 : Nat) : ℚ) - 1 := by
        have h1 : (i : ℚ) ≤ (m : ℚ) + 1 := by exact_mod_cast (by omega : i ≤ m + 1)
        push_cast
        linarith
      have hle : (i : ℚ) * (b - a) / (((m + 2 : Nat) : ℚ) - 1) ≤ b - a := by
        rw [div_le_iff₀ hd]
        calc (i : ℚ) * (b - a) ≤ ((((m + 2 : Nat) : ℚ)) - 1) * (b - a) :=
              mul_le_mul_of_nonneg_right hile hba
          _ = (b - a) * ((((m + 2 : Nat) : ℚ)) - 1) := mul_comm _ _
      linarith

theorem linspace_sorted {a b : ℚ} {n : Nat} (hab : a ≤ b) :
    (linspace a b n).Pairwise (· ≤ ·) := by
  match n with
  | 0 => simp [linspace]
  | 1 => simp [linspace]
  | (m + 2) =>
    simp only [linspace, if_neg (by omega : ¬ m + 2 = 0), if_neg (by omega : ¬ m + 2 = 1)]
    have hd : (0 : ℚ) < ((m + 2 : Nat) : ℚ) - 1 := by push_cast; linarith
    have hba : (0 : ℚ) ≤ b - a := sub_nonneg.mpr hab
    refine List.Pairwise.map _ (fun i j hij => ?_) (List.pairwise_lt_range (m + 2))
    have hc : (i : ℚ) ≤ (j : ℚ) := by exact_mod_cast le_of_lt hij
    have hmono : (i : ℚ) * (b - a) / (((m + 2 : Nat) : ℚ) - 1) ≤
        (j : ℚ) * (b - a) / (((m + 2 : Nat) : ℚ) - 1) :=
      (div_le_div_iff_of_pos_right hd).mpr (mul_le_mul_of_nonneg_right hc hba)
    linarith

/-- The relevant facts about `bestWFor` on a nonempty search set whose rows
all have truth and a model prediction: the selected weight splits the grid
into strictly-worse earlier points and no-better later points. -/
theorem bestW_split (sq : ℚ → ℚ) (df : List BRow) (bs : List Bucket)
    (wmin wmax : ℚ) (steps : Nat) (name : String)
    (hne : subFor df bs name ≠ [])
    (hok : ∀ r ∈ subFor df bs name, r.truth_c.isSome ∧ r.pred_c.isSome)
    (hsteps : 1 ≤ steps) :
    ∃ pre post,
      linspace wmin wmax steps =
        pre ++ bestWFor sq df bs wmin wmax steps name :: post ∧
      (∀ w ∈ pre, rmQ sq (subFor df bs name) (bestWFor sq df bs wmin wmax steps name) <
        rmQ sq (subFor df bs name) w) ∧
      (∀ w ∈ post, rmQ sq (subFor df bs name) (bestWFor sq df bs wmin wmax steps name) ≤
        rmQ sq (subFor df bs name) w) := by
  have hok3 : ∀ r ∈ subFor df bs name,
      r.truth_c.isSome ∧ r.pred_c.isSome ∧ (pred_c_base r).isSome := by
    intro r hr
    have hm := List.mem_filter.mp hr
    have hb := ((Bool.and_eq_true _ _).mp hm.2).2
    exact ⟨(hok r hr).1, (hok r hr).2, hb⟩
  obtain ⟨w0, gt, hg⟩ := List.exists_cons_of_ne_nil (@linspace_ne_nil wmin wmax steps hsteps)
  have hni : (subFor df bs name).isEmpty = false := by
    simpa [List.isEmpty_iff] using hne
  have hbw : bestWFor sq df bs wmin wmax steps name =
      selLoop (rmQ sq (subFor df bs name)) gt w0 := by
    simp only [bestWFor, hni, Bool.false_eq_true, if_false]
    rw [hg, searchW_eq sq (subFor df bs name) hok3 w0 gt]
  rw [hbw, hg]
  exact selLoop_split (rmQ sq (subFor df bs name)) gt w0

/-- The selected weight minimizes the grid RMSE over the whole grid. -/
theorem bestW_min (sq : ℚ → ℚ) (df : List BRow) (bs : List Bucket)
    (wmin wmax : ℚ) (steps : Nat) (name : String)
    (hne : subFor df bs name ≠ [])
    (hok : ∀ r ∈ subFor df bs name, r.truth_c.isSome ∧ r.pred_c.isSome)
    (hsteps : 1 ≤ steps) :
    ∀ w ∈ linspace wmin wmax steps,
      rmQ sq (subFor df bs name) (bestWFor sq df bs wmin wmax steps name) ≤
        rmQ sq (subFor df bs name) w := by
  obtain ⟨pre, post, hsplit, hpre, hpost⟩ :=
    bestW_split sq df bs wmin wmax steps name hne hok hsteps
  intro w hw
  rw [hsplit] at hw
  rcases List.mem_append.mp hw with hw1 | hw2
  · exact le_of_lt (hpre w hw1)
  · rcases List.mem_cons.mp hw2 with rfl | hw3
    · exact le_refl _
    · exact hpost w hw3

/-- The selected weight is a grid point. -/
theorem bestW_mem (sq : ℚ → ℚ) (df : List BRow) (bs : List Bucket)
    (wmin wmax : ℚ) (steps : Nat) (name : String)
    (hne : subFor df bs name ≠ [])
    (hok : ∀ r ∈ subFor df bs name, r.truth_c.isSome ∧ r.pred_c.isSome)
    (hsteps : 1 ≤ steps) :
    bestWFor sq df bs wmin wmax steps name ∈ linspace wmin wmax steps := by
  obtain ⟨pre, post, hsplit, -, -⟩ :=
    bestW_split sq df bs wmin wmax steps name hne hok hsteps
  rw [hsplit]
  exact List.mem_append.mpr (Or.inr (List.mem_cons_self _ _))

/-- C5 (amended).  For a targeted bucket whose search set is nonempty and
whose searched rows all carry truth and a model prediction: the searched
rows are exactly the bucket rows having a best-baseline value (a missing
truth value does NOT exclude a row — see the counterexample), the grid is
ascending, every grid RMSE is defined, and the selected weight is the first
grid point attaining the minimal RMSE (strictly smaller than every earlier
grid point, no larger than every grid point), so exact ties go to the
earlier weight. -/
theorem C5_weight_search_amended (sq : ℚ → ℚ) (df : List BRow) (bs : List Bucket)
    (wmin wmax : ℚ) (steps : Nat) (name : String)
    (hne : subFor df bs name ≠ [])
    (hok : ∀ r ∈ subFor df bs name, r.truth_c.isSome ∧ r.pred_c.isSome)
    (hsteps : 1 ≤ steps) :
    (∀ r : BRow, r ∈ subFor df bs name ↔
      r ∈ df ∧ bucket_name r.horizon bs = name ∧ (pred_c_base r).isSome) ∧
    (wmin ≤ wmax → (linspace wmin wmax steps).Pairwise (· ≤ ·)) ∧
    (∀ w : ℚ, rmseAt sq (subFor df bs name) w =
      some (rmQ sq (subFor df bs name) w)) ∧
    (∃ pre post,
      linspace wmin wmax steps =
        pre ++ bestWFor sq df bs wmin wmax steps name :: post ∧
      (∀ w ∈ pre, rmQ sq (subFor df bs name) (bestWFor sq df bs wmin wmax steps name) <
        rmQ sq (subFor df bs name) w) ∧
      (∀ w ∈ linspace wmin wmax steps,
        rmQ sq (subFor df bs name) (bestWFor sq df bs wmin wmax steps name) ≤
        rmQ sq (subFor df bs name) w)) := by
  have hok3 : ∀ r ∈ subFor df bs name,
      r.truth_c.isSome ∧ r.pred_c.isSome ∧ (pred_c_base r).isSome := by
    intro r hr
    have hm := List.mem_filter.mp hr
    have hb := ((Bool.and_eq_true _ _).mp hm.2).2
    exact ⟨(hok r hr).1, (hok r hr).2, hb⟩
  refine ⟨?_, fun hab => linspace_sorted hab, fun w => rmseAt_some (hok3 · ·), ?_⟩
  · intro r
    constructor
    · intro hr
      have hm := List.mem_filter.mp hr
      have hb := (Bool.and_eq_true _ _).mp hm.2
      exact ⟨hm.1, by simpa using hb.1, hb.2⟩
    · intro ⟨h1, h2, h3⟩
      exact List.mem_filter.mpr ⟨h1, (Bool.and_eq_true _ _).mpr ⟨by simpa using h2, h3⟩⟩
  · obtain ⟨pre, post, hsplit, hpre, hpost⟩ :=
      bestW_split sq df bs wmin wmax steps name hne hok hsteps
    exact ⟨pre, post, hsplit, hpre,
      bestW_min sq df bs wmin wmax steps name hne hok hsteps⟩

/-- Concrete rows exercising the blend components: `exRowA` has truth, a
model prediction and a climatology baseline; `exRowB` sits in the same
bucket with a baseline but a missing truth value. -/
theorem C5_weight_search_counterexample :
    exRowB ∈ subFor [exRowA, exRowB] exBuckets "h07_12" ∧
    exRowB.truth_c = none ∧
    bestWFor id [exRowA, exRowB] exBuckets 1 1 1 "h07_12" = 0 ∧
    bestWForSpec id [exRowA, exRowB] exBuckets 1 1 1 "h07_12" = 1 := by
  decide

/-- C5 witness: the amended statement applied to the one-row bucket. -/
theorem C5_weight_search_witness :
    rmseAt id (subFor [exRowA] exBuckets "h07_12") 0 =
      some (rmQ id (subFor [exRowA] exBuckets "h07_12") 0) ∧
    rmQ id (subFor [exRowA] exBuckets "h07_12")
        (bestWFor id [exRowA] exBuckets 0 0 1 "h07_12") ≤
      rmQ id (subFor [exRowA] exBuckets "h07_12") 0 := by
  obtain ⟨-, -, hsome, ⟨pre, post, hsplit, hpre, hmin⟩⟩ :=
    C5_weight_search_amended id [exRowA] exBuckets 0 0 1 "h07_12"
      (by decide) (by decide) (by decide)
  exact ⟨hsome 0, hmin 0 (by decide)⟩

/-- C6.  For an optimized bucket — a targeted bucket whose search set is
nonempty with truth and model predictions present, so the grid RMSEs are
defined — the selected blend weight lies within `[w_min, w_max]`, and its
RMSE over the bucket's searched rows is at most the RMSE at weight 0
whenever the grid contains 0 (the default configuration has `w_min = 0`,
whose grid always starts at 0). -/
theorem C6_weight_in_range (sq : ℚ → ℚ) (df : List BRow) (bs : List Bucket)
    (wmin wmax : ℚ) (steps : Nat) (name : String)
    (hne : subFor df bs name ≠ [])
    (hok : ∀ r ∈ subFor df bs name, r.truth_c.isSome ∧ r.pred_c.isSome)
    (hsteps : 1 ≤ steps) (hab : wmin ≤ wmax) :
    wmin ≤ bestWFor sq df bs wmin wmax steps name ∧
    bestWFor sq df bs wmin wmax steps name ≤ wmax ∧
    ((0 : ℚ) ∈ linspace wmin wmax steps →
      ∃ a b, rmseAt sq (subFor df bs name) (bestWFor sq df bs wmin wmax steps name) =
          some a ∧
        rmseAt sq (subFor df bs name) 0 = some b ∧ a ≤ b) := by
  have hok3 : ∀ r ∈ subFor df bs name,
      r.truth_c.isSome ∧ r.pred_c.isSome ∧ (pred_c_base r).isSome := by
    intro r hr
    have hm := List.mem_filter.mp hr
    have hb := ((Bool.and_eq_true _ _).mp hm.2).2
    exact ⟨(hok r hr).1, (hok r hr).2, hb⟩
  have hmem := bestW_mem sq df bs wmin wmax steps name hne hok hsteps
  have hbounds := linspace_mem_bounds hab hmem
  refine ⟨hbounds.1, hbounds.2, ?_⟩
  intro h0
  refine ⟨rmQ sq (subFor df bs name) (bestWFor sq df bs wmin wmax steps name),
    rmQ sq (subFor df bs name) 0, rmseAt_some (hok3 · ·), rmseAt_some (hok3 · ·), ?_⟩
  exact bestW_min sq df bs wmin wmax steps name hne hok hsteps 0 h0

/-- C6 witness at the one-row bucket with the default `w_min = 0`. -/
theorem C6_weight_in_range_witness :
    0 ≤ bestWFor id [exRowA] exBuckets 0 0 1 "h07_12" ∧
    bestWFor id [exRowA] exBuckets 0 0 1 "h07_12" ≤ 0 := by
  obtain ⟨h1, h2, -⟩ :=
    C6_weight_in_range id [exRowA] exBuckets 0 0 1 "h07_12"
      (by decide) (by decide) (by decide) (by decide)
  exact ⟨h1, h2⟩

/-! ### Helper lemmas about the metrics evaluator -/

theorem isEmpty_map_eq {α β : Type} (f : α → β) (l : List α) :
    (l.map f).isEmpty = l.isEmpty := by
  cases l <;> rfl

theorem filterMap_id_all_some {α : Type} (g : α → Option ℚ) :
    ∀ l : List α, (∀ x ∈ l, (g x).isSome) →
      (l.map g).filterMap id = l.map (fun x => (g x).getD 0) := by
  intro l
  induction l with
  | nil => intro _; rfl
  | cons a t ih =>
    intro hall
    rcases Option.isSome_iff_exists.mp (hall a (List.mem_cons_self a t)) with ⟨v, hv⟩
    have ht := ih (fun x hx => hall x (List.mem_cons_of_mem a hx))
    simp [hv, ht]

theorem filterMap_pt (f : ℚ → ℚ → ℚ) :
    ∀ l : List MRow, (∀ r ∈ l, r.pred_c.isSome) →
      (l.filterMap (fun r => r.pred_c.bind (fun p => r.truth_c.bind (fun y => some (f p y))))) =
      (l.filter (fun r => r.truth_c.isSome)).map
        (fun r => f (r.pred_c.getD 0) (r.truth_c.getD 0)) := by
  intro l
  induction l with
  | nil => intro _; rfl
  | cons r t ih =>
    intro hall
    have ht := ih (fun x hx => hall x (List.mem_cons_of_mem r hx))
    rcases Option.isSome_iff_exists.mp (hall r (List.mem_cons_self r t)) with ⟨p, hp⟩
    cases hy : r.truth_c with
    | none => simp [List.filterMap_cons, List.filter_cons, hp, hy, ht]
    | some y => simp [List.filterMap_cons, List.filter_cons, hp, hy, ht]

theorem aeOf_eq (r : MRow) :
    aeOf r = r.pred_c.bind (fun p => r.truth_c.bind (fun y => some |p - y|)) := rfl

theorem seOf_eq (r : MRow) :
    seOf r = r.pred_c.bind (fun p => r.truth_c.bind (fun y => some ((p - y) ^ 2))) := rfl

/-- Per-group MAE in explicit form: the skipna mean over the group equals
the plain mean over the group's truth-known rows. -/
theorem statMAE_eq (bs : List Bucket) (m : List MRow) (c b : String)
    (hpred : ∀ r ∈ m, r.pred_c.isSome) :
    statMAE bs m c b =
      (if ((groupRows bs m c b).filter (fun r => r.truth_c.isSome)).isEmpty then none
       else some (omean (((groupRows bs m c b).filter (fun r => r.truth_c.isSome)).map
         (fun r => |r.pred_c.getD 0 - r.truth_c.getD 0|)))) := by
  have hg : ∀ r ∈ groupRows bs m c b, r.pred_c.isSome := by
    intro r hr
    exact hpred r (List.mem_filter.mp hr).1
  have h1 : ((groupRows bs m c b).map aeOf).filterMap id =
      (groupRows bs m c b).filterMap
        (fun r => r.pred_c.bind (fun p => r.truth_c.bind (fun y => some |p - y|))) := by
    rw [List.filterMap_map]
    rfl
  unfold statMAE skipMean
  rw [h1, filterMap_pt (fun p y => |p - y|) _ hg]
  simp only [isEmpty_map_eq]

/-- Per-group RMSE in explicit form. -/
theorem statRMSE_eq (sq : ℚ → ℚ) (bs : List Bucket) (m : List MRow) (c b : String)
    (hpred : ∀ r ∈ m, r.pred_c.isSome) :
    statRMSE sq bs m c b =
      (if ((groupRows bs m c b).filter (fun r => r.truth_c.isSome)).isEmpty then none
       else some (sq (omean (((groupRows bs m c b).filter (fun r => r.truth_c.isSome)).map
         (fun r => (r.pred_c.getD 0 - r.truth_c.getD 0) ^ 2))))) := by
  have hg : ∀ r ∈ groupRows bs m c b, r.pred_c.isSome := by
    intro r hr
    exact hpred r (List.mem_filter.mp hr).1
  have h1 : ((groupRows bs m c b).map seOf).filterMap id =
      (groupRows bs m c b).filterMap
        (fun r => r.pred_c.bind (fun p => r.truth_c.bind (fun y => some ((p - y) ^ 2)))) := by
    rw [List.filterMap_map]
    rfl
  unfold statRMSE skipMean
  rw [h1, filterMap_pt (fun p y => (p - y) ^ 2) _ hg]
  simp only [isEmpty_map_eq]
  split_ifs <;> rfl

/-- C9.  The metrics evaluator computes per-(country, bucket) MAE and RMSE
over the rows with known truth (predictions are assumed present, as every
forecast row carries one), and the global per-bucket MAE and RMSE each
equal the unweighted arithmetic mean — sum divided by the number of
countries — of the per-country statistics of that bucket, so every country
counts equally regardless of its row count. -/
theorem C9_metrics_unweighted (sq : ℚ → ℚ) (bs : List Bucket) (m : List MRow)
    (b : String)
    (hpred : ∀ r ∈ m, r.pred_c.isSome)
    (hcb : bucketCountries bs m b ≠ [])
    (hT : ∀ c ∈ bucketCountries bs m b,
      ((groupRows bs m c b).filter (fun r => r.truth_c.isSome)).isEmpty = false) :
    (∀ c : String,
      statMAE bs m c b =
        (if ((groupRows bs m c b).filter (fun r => r.truth_c.isSome)).isEmpty then none
         else some (omean (((groupRows bs m c b).filter (fun r => r.truth_c.isSome)).map
           (fun r => |r.pred_c.getD 0 - r.truth_c.getD 0|)))) ∧
      statRMSE sq bs m c b =
        (if ((groupRows bs m c b).filter (fun r => r.truth_c.isSome)).isEmpty then none
         else some (sq (omean (((groupRows bs m c b).filter (fun r => r.truth_c.isSome)).map
           (fun r => (r.pred_c.getD 0 - r.truth_c.getD 0) ^ 2)))))) ∧
    globalMAE bs m b =
      some ((((bucketCountries bs m b).map (fun c => (statMAE bs m c b).getD 0)).sum) /
        ((bucketCountries bs m b).length : ℚ)) ∧
    globalRMSE sq bs m b =
      some ((((bucketCountries bs m b).map (fun c => (statRMSE sq bs m c b).getD 0)).sum) /
        ((bucketCountries bs m b).length : ℚ)) := by
  have hMAEsome : ∀ c ∈ bucketCountries bs m b, (statMAE bs m c b).isSome := by
    intro c hc
    rw [statMAE_eq bs m c b hpred, hT c hc]
    rfl
  have hRMSEsome : ∀ c ∈ bucketCountries bs m b, (statRMSE sq bs m c b).isSome := by
    intro c hc
    rw [statRMSE_eq sq bs m c b hpred, hT c hc]
    rfl
  have hcbe : (bucketCountries bs m b).isEmpty = false := by
    cases hbc : bucketCountries bs m b with
    | nil => exact absurd hbc hcb
    | cons x t => rfl
  refine ⟨fun c => ⟨statMAE_eq bs m c b hpred, statRMSE_eq sq bs m c b hpred⟩, ?_, ?_⟩
  · unfold globalMAE skipMean
    rw [filterMap_id_all_some _ _ hMAEsome]
    simp only [isEmpty_map_eq, hcbe, Bool.false_eq_true, if_false]
    unfold omean
    rw [List.length_map]
  · unfold globalRMSE skipMean
    rw [filterMap_id_all_some _ _ hRMSEsome]
    simp only [isEmpty_map_eq, hcbe, Bool.false_eq_true, if_false]
    unfold omean
    rw [List.length_map]

/-- Concrete forecast rows for the metrics witness: one country, two rows
in the same bucket. -/
theorem C9_metrics_unweighted_witness :
    statMAE exBuckets exMRows "X" "h07_12" =
      (if ((groupRows exBuckets exMRows "X" "h07_12").filter
          (fun r => r.truth_c.isSome)).isEmpty then none
       else some (omean (((groupRows exBuckets exMRows "X" "h07_12").filter
          (fun r => r.truth_c.isSome)).map
         (fun r => |r.pred_c.getD 0 - r.truth_c.getD 0|)))) ∧
    globalMAE exBuckets exMRows "h07_12" =
      some ((((bucketCountries exBuckets exMRows "h07_12").map
        (fun c => (statMAE exBuckets exMRows c "h07_12").getD 0)).sum) /
        ((bucketCountries exBuckets exMRows "h07_12").length : ℚ)) := by
  obtain ⟨h1, h2, -⟩ :=
    C9_metrics_unweighted id exBuckets exMRows "h07_12"
      (by decide) (by decide) (by decide)
  exact ⟨(h1 "X").1, h2⟩

/-! ### Helper lemmas about the recursive horizon loop -/

theorem stepRec_none_of_lookup {O : Oracles} {cfg : Config} {anom : List ARow}
    {co : String} {cols : List FCol} {predict : List ℚ → ℚ} {cym : String}
    {k_cut : Int} {h : Nat} {hist : List (Option ℚ)}
    (hL : lookupA anom co (k_cut + (h : Int)) = none) :
    stepRec O cfg anom co cols predict cym k_cut h hist = none := by
  simp only [stepRec, hL]

/-- Everything one record of a successful horizon step satisfies: its tag
fields, and the state update appending the damped prediction then keeping
the most recent 120 entries. -/
theorem stepRec_some {O : Oracles} {cfg : Config} {anom : List ARow}
    {co : String} {cols : List FCol} {predict : List ℚ → ℚ} {cym : String}
    {k_cut : Int} {h : Nat} {hist : List (Option ℚ)} {p : Rec × List (Option ℚ)}
    (heq : stepRec O cfg anom co cols predict cym k_cut h hist = some p) :
    p.1.country = co ∧ p.1.cutoff_ym = cym ∧ p.1.horizon = (h : Int) ∧
    p.1.model = "ridge" ∧
    p.2 = (let l := hist ++ [some ((max 0 (min 1 cfg.damping)) * p.1.pred_anom)];
           if 120 < l.length then l.drop (l.length - 120) else l) ∧
    (lookupA anom co (k_cut + (h : Int))).isSome := by
  cases hL : lookupA anom co (k_cut + (h : Int)) with
  | none =>
    rw [stepRec_none_of_lookup hL] at heq
    exact absurd heq (by simp)
  | some srow =>
    simp only [stepRec, hL] at heq
    by_cases hv : (cols.map (vecCol (histVec O hist (key_to_ym (k_cut + (h : Int))).2))).any
        Option.isNone = true
    · rw [if_pos hv] at heq
      exact absurd heq (by simp)
    · rw [if_neg hv] at heq
      rw [Option.some_inj] at heq
      subst heq
      exact ⟨rfl, rfl, rfl, rfl, rfl, rfl⟩

theorem recLoop_cons {O : Oracles} {cfg : Config} {anom : List ARow}
    {co : String} {cols : List FCol} {predict : List ℚ → ℚ} {cym : String}
    {k_cut : Int} (h : Nat) (hs : List Nat) (hist : List (Option ℚ)) :
    recLoop O cfg anom co cols predict cym k_cut (h :: hs) hist =
      (match stepRec O cfg anom co cols predict cym k_cut h hist with
       | none => []
       | some (rc, hist2) => rc :: recLoop O cfg anom co cols predict cym k_cut hs hist2) := rfl

theorem recLoop_mem_fields {O : Oracles} {cfg : Config} {anom : List ARow}
    {co : String} {cols : List FCol} {predict : List ℚ → ℚ} {cym : String}
    {k_cut : Int} :
    ∀ (hs : List Nat) (hist : List (Option ℚ)) (rc : Rec),
      rc ∈ recLoop O cfg anom co cols predict cym k_cut hs hist →
      rc.country = co ∧ rc.cutoff_ym = cym := by
  intro hs
  induction hs with
  | nil => intro hist rc hmem; exact absurd hmem (by simp [recLoop])
  | cons h t ih =>
    intro hist rc hmem
    rw [recLoop_cons] at hmem
    cases hstep : stepRec O cfg anom co cols predict cym k_cut h hist with
    | none => rw [hstep] at hmem; exact absurd hmem (by simp)
    | some p =>
      rw [hstep] at hmem
      obtain ⟨hc, hy, -, -, -, -⟩ := stepRec_some hstep
      rcases List.mem_cons.mp hmem with rfl | hmem2
      · exact ⟨hc, hy⟩
      · exact ih p.2 rc hmem2

theorem recLoop_length_le {O : Oracles} {cfg : Config} {anom : List ARow}
    {co : String} {cols : List FCol} {predict : List ℚ → ℚ} {cym : String}
    {k_cut : Int} :
    ∀ (hs : List Nat) (hist : List (Option ℚ)),
      (recLoop O cfg anom co cols predict cym k_cut hs hist).length ≤ hs.length := by
  intro hs
  induction hs with
  | nil => intro hist; simp [recLoop]
  | cons h t ih =>
    intro hist
    rw [recLoop_cons]
    cases hstep : stepRec O cfg anom co cols predict cym k_cut h hist with
    | none => simp
    | some p =>
      simp only [List.length_cons]
      exact Nat.succ_le_succ (ih p.2)

/-- The horizons emitted over `range' a n` form the contiguous prefix
`range' a len`: nothing is emitted past the first failed step. -/
theorem recLoop_prefix {O : Oracles} {cfg : Config} {anom : List ARow}
    {co : String} {cols : List FCol} {predict : List ℚ → ℚ} {cym : String}
    {k_cut : Int} :
    ∀ (n a : Nat) (hist : List (Option ℚ)),
      (recLoop O cfg anom co cols predict cym k_cut (List.range' a n) hist).map (·.horizon) =
      (List.range' a
        (recLoop O cfg anom co cols predict cym k_cut (List.range' a n) hist).length).map
          (fun (x : Nat) => (x : Int)) := by
  intro n
  induction n with
  | zero => intro a hist; rfl
  | succ n ih =>
    intro a hist
    rw [List.range'_succ, recLoop_cons]
    cases hstep : stepRec O cfg anom co cols predict cym k_cut a hist with
    | none => rfl
    | some p =>
      obtain ⟨-, -, hh, -, -, -⟩ := stepRec_some hstep
      simp only [List.map_cons, List.length_cons, List.range'_succ, hh]
      rw [ih (a + 1) p.2]

/-- If the Series-Store lookup at horizon `hf` fails, no record at any
horizon ≥ `hf` is produced by the remaining loop. -/
theorem recLoop_halt {O : Oracles} {cfg : Config} {anom : List ARow}
    {co : String} {cols : List FCol} {predict : List ℚ → ℚ} {cym : String}
    {k_cut : Int} {hf : Nat}
    (hfail : lookupA anom co (k_cut + (hf : Int)) = none) :
    ∀ (n a : Nat) (hist : List (Option ℚ)), a ≤ hf →
      ∀ rc ∈ recLoop O cfg anom co cols predict cym k_cut (List.range' a n) hist,
        rc.horizon < (hf : Int) := by
  intro n
  induction n with
  | zero => intro a hist _ rc hmem; exact absurd hmem (by simp [recLoop])
  | succ n ih =>
    intro a hist hle rc hmem
    rw [List.range'_succ, recLoop_cons] at hmem
    cases hstep : stepRec O cfg anom co cols predict cym k_cut a hist with
    | none => rw [hstep] at hmem; exact absurd hmem (by simp)
    | some p =>
      rw [hstep] at hmem
      have hne : a ≠ hf := by
        intro hcontra
        subst hcontra
        rw [stepRec_none_of_lookup hfail] at hstep
        exact absurd hstep (by simp)
      have halt : a < hf := lt_of_le_of_ne hle hne
      obtain ⟨-, -, hh, -, -, -⟩ := stepRec_some hstep
      rcases List.mem_cons.mp hmem with rfl | hmem2
      · rw [hh]; exact_mod_cast halt
      · exact ih (a + 1) p.2 halt rc hmem2


/-! ### Helper lemmas about task assembly and output extraction -/

theorem taskRows_mem_fields {O : Oracles} {cfg : Config} {t : FTable}
    {anom : List ARow} {HMAX : Nat} {cym : String} {k_cut : Int} {co : String}
    {rc : Rec} (hmem : rc ∈ taskRows O cfg t anom HMAX cym k_cut co) :
    rc.country = co ∧ rc.cutoff_ym = cym := by
  simp only [taskRows] at hmem
  split_ifs at hmem <;>
    first
      | exact absurd hmem (List.not_mem_nil rc)
      | exact recLoop_mem_fields _ _ rc hmem

theorem taskRows_length_le {O : Oracles} {cfg : Config} {t : FTable}
    {anom : List ARow} {HMAX : Nat} {cym : String} {k_cut : Int} {co : String} :
    (taskRows O cfg t anom HMAX cym k_cut co).length ≤ HMAX := by
  simp only [taskRows]
  split_ifs <;>
    first
      | exact Nat.zero_le HMAX
      | exact le_trans (recLoop_length_le _ _)
          (le_of_eq (by simp : (List.range' 1 HMAX).length = HMAX))

theorem taskRows_prefix {O : Oracles} {cfg : Config} {t : FTable}
    {anom : List ARow} {HMAX : Nat} {cym : String} {k_cut : Int} {co : String} :
    (taskRows O cfg t anom HMAX cym k_cut co).map (·.horizon) =
      (List.range' 1 (taskRows O cfg t anom HMAX cym k_cut co).length).map
        (fun (x : Nat) => (x : Int)) := by
  simp only [taskRows]
  split_ifs <;>
    first
      | rfl
      | exact recLoop_prefix HMAX 1 (seedHist anom co k_cut)

theorem taskRows_halt {O : Oracles} {cfg : Config} {t : FTable}
    {anom : List ARow} {HMAX : Nat} {cym : String} {k_cut : Int} {co : String}
    {hf : Nat} (h1 : 1 ≤ hf)
    (hfail : lookupA anom co (k_cut + (hf : Int)) = none) :
    ∀ rc ∈ taskRows O cfg t anom HMAX cym k_cut co, rc.horizon < (hf : Int) := by
  simp only [taskRows]
  split_ifs <;>
    first
      | (intro rc hmem; exact absurd hmem (List.not_mem_nil rc))
      | exact recLoop_halt hfail HMAX 1 (seedHist anom co k_cut) h1

theorem taskRows_gate {O : Oracles} {cfg : Config} {t : FTable}
    {anom : List ARow} {HMAX : Nat} {cym : String} {k_cut : Int} {co : String}
    (hgate : (trainEligible t co k_cut).length < cfg.min_train_rows) :
    taskRows O cfg t anom HMAX cym k_cut co = [] ∧
      taskFits cfg t co k_cut = false := by
  constructor
  · simp only [taskRows]
    rw [if_pos hgate]
  · simp only [taskFits]
    rw [if_pos hgate]

theorem filter_flatten (p : Rec → Bool) :
    ∀ L : List (List Rec), (L.flatten).filter p = (L.map (List.filter p)).flatten := by
  intro L
  induction L with
  | nil => rfl
  | cons a t ih => simp [List.filter_append, ih]

theorem flatten_map_single {β : Type} [DecidableEq β] :
    ∀ (L : List β) (g : β → List Rec) (x : β), L.Nodup → x ∈ L →
      (∀ y ∈ L, y ≠ x → g y = []) → (L.map g).flatten = g x := by
  intro L
  induction L with
  | nil => intro g x _ hx; exact absurd hx (by simp)
  | cons a t ih =>
    intro g x hnd hx hother
    rcases List.mem_cons.mp hx with rfl | hxt
    · have hrest : (t.map g).flatten = [] := by
        rw [List.flatten_eq_nil_iff]
        intro l hl
        rcases List.mem_map.mp hl with ⟨y, hy, rfl⟩
        have hyx : y ≠ x := by
          intro hcontra
          subst hcontra
          exact (List.nodup_cons.mp hnd).1 hy
        exact hother y (List.mem_cons_of_mem x hy) hyx
      simp [hrest]
    · have hax : a ≠ x := by
        intro hcontra
        subst hcontra
        exact (List.nodup_cons.mp hnd).1 hxt
      have ha : g a = [] := hother a (List.mem_cons_self a t) hax
      simp only [List.map_cons, List.flatten_cons, ha, List.nil_append]
      exact ih g x (List.nodup_cons.mp hnd).2 hxt
        (fun y hy hyx => hother y (List.mem_cons_of_mem a hy) hyx)

/-- Every task's slice of the accumulated output table is exactly that
task's own rows: tasks are independent and the filter recovers each one. -/
theorem mainForecasts_extract (O : Oracles) (cfg : Config) (t : FTable)
    (anom : List ARow) (HMAX : Nat) (cuts : List Cut) (cut : Cut) (co : String)
    (hcut : cut ∈ cuts) (hco : co ∈ countriesOf t)
    (hnd : (cuts.map (·.cutoff_ym)).Nodup) :
    (mainForecasts O cfg t anom HMAX cuts).filter
      (fun rc => rc.country == co && rc.cutoff_ym == cut.cutoff_ym) =
    taskRows O cfg t anom HMAX cut.cutoff_ym cut.cutoff_key co := by
  have hinj : ∀ c2 ∈ cuts, c2.cutoff_ym = cut.cutoff_ym → c2 = cut :=
    fun c2 hc2 he => List.inj_on_of_nodup_map hnd hc2 hcut he
  unfold mainForecasts
  rw [filter_flatten, List.map_map]
  rw [flatten_map_single cuts _ cut (List.Nodup.of_map _ hnd) hcut ?hoth]
  case hoth =>
    intro c2 hc2 hne
    simp only [Function.comp_apply]
    rw [List.filter_eq_nil_iff]
    intro rc hmem
    rcases List.mem_flatten.mp hmem with ⟨l, hl, hrc⟩
    rcases List.mem_map.mp hl with ⟨c3, hc3, rfl⟩
    obtain ⟨-, hym⟩ := taskRows_mem_fields hrc
    have hyne : c2.cutoff_ym ≠ cut.cutoff_ym := fun he => hne (hinj c2 hc2 he)
    simp only [Bool.and_eq_true, beq_iff_eq, not_and]
    intro _
    rw [hym]
    exact hyne
  simp only [Function.comp_apply]
  rw [filter_flatten, List.map_map]
  rw [flatten_map_single (countriesOf t) _ co (List.nodup_dedup _) hco ?hoth2]
  case hoth2 =>
    intro c2 hc2 hne
    simp only [Function.comp_apply]
    rw [List.filter_eq_nil_iff]
    intro rc hmem
    obtain ⟨hcountry, -⟩ := taskRows_mem_fields hmem
    simp only [Bool.and_eq_true, beq_iff_eq, not_and]
    intro hh
    rw [hcountry] at hh
    exact absurd hh hne
  simp only [Function.comp_apply]
  rw [List.filter_eq_self]
  intro rc hmem
  obtain ⟨hcountry, hym⟩ := taskRows_mem_fields hmem
  simp [hcountry, hym]

/-- C2.  Each recursive (country, cutoff) task emits at most `horizons_max`
records; the emitted horizons are the contiguous prefix `1..len`, so once a
step fails (lookup miss or missing feature field) nothing is emitted at any
later horizon; if the Series-Store lookup at `cutoff + hf` misses, no
record of the task reaches horizon `hf` or beyond; and each task's slice of
the accumulated output equals its own isolated rows, so no failure affects
any other (country, cutoff) task. -/
theorem C2_recursive_halting (O : Oracles) (cfg : Config) (t : FTable)
    (anom : List ARow) (HMAX : Nat) (cuts : List Cut) (cut : Cut) (co : String)
    (hcut : cut ∈ cuts) (hco : co ∈ countriesOf t)
    (hnd : (cuts.map (·.cutoff_ym)).Nodup) :
    (taskRows O cfg t anom HMAX cut.cutoff_ym cut.cutoff_key co).length ≤ HMAX ∧
    (taskRows O cfg t anom HMAX cut.cutoff_ym cut.cutoff_key co).map (·.horizon) =
      (List.range' 1 (taskRows O cfg t anom HMAX cut.cutoff_ym cut.cutoff_key co).length).map
        (fun (x : Nat) => (x : Int)) ∧
    (∀ hf : Nat, 1 ≤ hf → lookupA anom co (cut.cutoff_key + (hf : Int)) = none →
      ∀ rc ∈ taskRows O cfg t anom HMAX cut.cutoff_ym cut.cutoff_key co,
        rc.horizon < (hf : Int)) ∧
    (mainForecasts O cfg t anom HMAX cuts).filter
      (fun rc => rc.country == co && rc.cutoff_ym == cut.cutoff_ym) =
      taskRows O cfg t anom HMAX cut.cutoff_ym cut.cutoff_key co :=
  ⟨taskRows_length_le, taskRows_prefix,
   fun _ h1 hfail => taskRows_halt h1 hfail,
   mainForecasts_extract O cfg t anom HMAX cuts cut co hcut hco hnd⟩

/-- Concrete inputs for the recursive-mode witnesses. -/
theorem C2_recursive_halting_witness :
    (taskRows exO exCfg0 exT [] 2 "0002-01" 24 "A").length ≤ 2 ∧
    (mainForecasts exO exCfg0 exT [] 2 [exCut]).filter
      (fun rc => rc.country == "A" && rc.cutoff_ym == "0002-01") =
      taskRows exO exCfg0 exT [] 2 "0002-01" 24 "A" := by
  obtain ⟨h1, -, -, h4⟩ :=
    C2_recursive_halting exO exCfg0 exT [] 2 [exCut] exCut "A"
      (by decide) (by decide) (by decide)
  exact ⟨h1, h4⟩

/-- C8.  A (country, cutoff) task whose eligible training-row count is
below the configured floor fits no model and emits no record, and every
task's slice of the run's output still equals its own isolated rows — the
skip neither aborts the (total) run nor affects any other task. -/
theorem C8_min_rows_skip (O : Oracles) (cfg : Config) (t : FTable)
    (anom : List ARow) (HMAX : Nat) (cuts : List Cut) (cut : Cut) (co : String)
    (hcut : cut ∈ cuts) (hco : co ∈ countriesOf t)
    (hnd : (cuts.map (·.cutoff_ym)).Nodup)
    (hgate : (trainEligible t co cut.cutoff_key).length < cfg.min_train_rows) :
    taskFits cfg t co cut.cutoff_key = false ∧
    taskRows O cfg t anom HMAX cut.cutoff_ym cut.cutoff_key co = [] ∧
    (∀ cut2 ∈ cuts, ∀ co2 ∈ countriesOf t,
      (mainForecasts O cfg t anom HMAX cuts).filter
        (fun rc => rc.country == co2 && rc.cutoff_ym == cut2.cutoff_ym) =
        taskRows O cfg t anom HMAX cut2.cutoff_ym cut2.cutoff_key co2) :=
  ⟨(@taskRows_gate O cfg t anom HMAX cut.cutoff_ym cut.cutoff_key co hgate).2,
   (@taskRows_gate O cfg t anom HMAX cut.cutoff_ym cut.cutoff_key co hgate).1,
   fun cut2 hcut2 co2 hco2 =>
     mainForecasts_extract O cfg t anom HMAX cuts cut2 co2 hcut2 hco2 hnd⟩

theorem C8_min_rows_skip_witness :
    taskFits exCfg8 exT "A" 24 = false ∧
    taskRows exO exCfg8 exT [] 2 "0002-01" 24 "A" = [] ∧
    (mainForecasts exO exCfg8 exT [] 2 [exCut]).filter
      (fun rc => rc.country == "A" && rc.cutoff_ym == "0002-01") =
      taskRows exO exCfg8 exT [] 2 "0002-01" 24 "A" := by
  obtain ⟨h1, h2, h3⟩ :=
    C8_min_rows_skip exO exCfg8 exT [] 2 [exCut] exCut "A"
      (by decide) (by decide) (by decide) (by decide)
  exact ⟨h1, h2, h3 exCut (by decide) "A" (by decide)⟩

/-- After appending a value and truncating to the most recent 120 entries,
the buffer's `anomaly_lag1` feature is exactly the appended value. -/
theorem histVec_lag1_append (O : Oracles) (hist : List (Option ℚ)) (v : ℚ) (m : Int) :
    (histVec O
      (let l := hist ++ [some v];
       if 120 < l.length then l.drop (l.length - 120) else l) m).anom_lag1 =
    some v := by
  by_cases hlen : 120 < (hist ++ [some v]).length
  · simp only [hlen, if_true]
    have hlen2 : (hist ++ [some v]).length = hist.length + 1 := by simp
    have hd : ((hist ++ [some v]).drop ((hist ++ [some v]).length - 120)).length = 120 := by
      rw [List.length_drop]
      omega
    simp only [histVec, hd]
    rw [if_pos (by omega : 1 ≤ 120)]
    unfold negGet
    rw [hd, List.get?_drop]
    have hidx : (hist ++ [some v]).length - 120 + (120 - 1) = hist.length := by omega
    rw [hidx, List.get?_concat_length]
    rfl
  · simp only [hlen, if_false]
    have hlen2 : (hist ++ [some v]).length = hist.length + 1 := by simp
    simp only [histVec]
    rw [if_pos (by omega : 1 ≤ (hist ++ [some v]).length)]
    unfold negGet
    rw [hlen2]
    have hidx : hist.length + 1 - 1 = hist.length := by omega
    rw [hidx, List.get?_concat_length]
    rfl

/-- C3.  With damping 0.9, clipping disabled and climatology blending
disabled, a successful horizon-1 step appends exactly `0.9 * p1` (where
`p1` is the emitted predicted anomaly) to the history buffer and truncates
it to its most recent 120 entries; the `anomaly_lag1` feature built from
the updated buffer at horizon 2 is exactly `0.9 * p1`; the loop then
continues on the updated buffer; and in general every successful step
appends `clamp(damping, 0, 1) * predicted_anomaly` before truncation. -/
theorem C3_damping_update (O : Oracles) (cfg : Config) (anom : List ARow)
    (co cym : String) (cols : List FCol) (predict : List ℚ → ℚ) (k_cut : Int)
    (hist : List (Option ℚ)) (p : Rec × List (Option ℚ)) (hs : List Nat) (m : Int)
    (hdamp : cfg.damping = 9/10) (hclip : cfg.clip_anom = 0)
    (hblend : cfg.blend_max = 0)
    (hstep : stepRec O cfg anom co cols predict cym k_cut 1 hist = some p) :
    p.2 = (let l := hist ++ [some ((9/10 : ℚ) * p.1.pred_anom)];
           if 120 < l.length then l.drop (l.length - 120) else l) ∧
    (histVec O p.2 m).anom_lag1 = some ((9/10 : ℚ) * p.1.pred_anom) ∧
    recLoop O cfg anom co cols predict cym k_cut (1 :: hs) hist =
      p.1 :: recLoop O cfg anom co cols predict cym k_cut hs p.2 ∧
    (∀ (cfg2 : Config) (h : Nat) (hist2 : List (Option ℚ)) (q : Rec × List (Option ℚ)),
      stepRec O cfg2 anom co cols predict cym k_cut h hist2 = some q →
      q.2 = (let l := hist2 ++ [some ((max 0 (min 1 cfg2.damping)) * q.1.pred_anom)];
             if 120 < l.length then l.drop (l.length - 120) else l)) := by
  have hd9 : max 0 (min 1 cfg.damping) = (9/10 : ℚ) := by
    rw [hdamp]
    norm_num
  obtain ⟨-, -, -, -, hupd, -⟩ := stepRec_some hstep
  rw [hd9] at hupd
  refine ⟨hupd, ?_, ?_, ?_⟩
  · rw [hupd]
    exact histVec_lag1_append O hist ((9/10 : ℚ) * p.1.pred_anom) m
  · rw [recLoop_cons, hstep]
  · intro cfg2 h hist2 q hq
    obtain ⟨-, -, -, -, hupd2, -⟩ := stepRec_some hq
    exact hupd2

theorem C3_damping_update_witness :
    (histVec exO [some (max 0 (min 1 ((9 : ℚ)/10)) * 1)] 3).anom_lag1 =
      some ((9/10 : ℚ) * exRc3.pred_anom) ∧
    recLoop exO exCfg3 exAnomB "A" [FCol.mon_sin] (fun _ => 1) "c" 0 [1] [] =
      exRc3 :: recLoop exO exCfg3 exAnomB "A" [FCol.mon_sin] (fun _ => 1) "c" 0 []
        [some (max 0 (min 1 ((9 : ℚ)/10)) * 1)] := by
  obtain ⟨-, h2, h3, -⟩ :=
    C3_damping_update exO exCfg3 exAnomB "A" "c" [FCol.mon_sin] (fun _ => 1) 0 []
      (exRc3, [some (max 0 (min 1 ((9 : ℚ)/10)) * 1)]) [] 3 rfl rfl rfl rfl
  exact ⟨h2, h3⟩

/-- C4.  Direct-mode training at cutoff `c` and horizon `h`: every training
row that survives the target join has TimeKey ≤ c − h, its regression
target is the stored true anomaly at TimeKey + h — which therefore never
lies past the cutoff — and any eligible row whose future anomaly at
TimeKey + h is missing is dropped before the fit. -/
theorem C4_direct_training (anom : List ARow) (t : FTable) (co : String)
    (k_cut h : Int) :
    (∀ pr ∈ dTrainT anom t co k_cut h,
      keyOfF pr.1 ≤ k_cut - h ∧
      keyOfF pr.1 + h ≤ k_cut ∧
      targAt anom co h (keyOfF pr.1) = some pr.2 ∧
      (lookupA anom co (keyOfF pr.1 + h)).bind (·.anomaly_c) = some pr.2) ∧
    (∀ r ∈ dTrain0 t co k_cut h, targAt anom co h (keyOfF r) = none →
      ∀ pr ∈ dTrainT anom t co k_cut h, pr.1 ≠ r) := by
  constructor
  · intro pr hpr
    rcases List.mem_filterMap.mp hpr with ⟨r, hr, hf⟩
    cases ht : targAt anom co h (keyOfF r) with
    | none => rw [ht] at hf; exact absurd hf (by simp)
    | some v =>
      rw [ht] at hf
      simp only [Option.map_some', Option.some.injEq] at hf
      obtain rfl := hf.symm
      have hkey : keyOfF r ≤ k_cut - h := by
        have := (List.mem_filter.mp hr).2
        exact of_decide_eq_true this
      exact ⟨hkey, (by omega : keyOfF r + h ≤ k_cut), ht, ht⟩
  · intro r hr hnone pr hpr
    rcases List.mem_filterMap.mp hpr with ⟨r2, hr2, hf⟩
    cases ht : targAt anom co h (keyOfF r2) with
    | none => rw [ht] at hf; exact absurd hf (by simp)
    | some v =>
      rw [ht] at hf
      simp only [Option.map_some', Option.some.injEq] at hf
      obtain rfl := hf.symm
      intro hcontra
      simp only at hcontra
      rw [hcontra] at ht
      rw [hnone] at ht
      exact absurd ht (by simp)

theorem C4_direct_training_witness :
    keyOfF exFRow ≤ 27 - 3 ∧ keyOfF exFRow + 3 ≤ 27 ∧
    targAt [exARow4] "A" 3 (keyOfF exFRow) = some 5 := by
  obtain ⟨h1, -⟩ := C4_direct_training [exARow4] exT "A" 27 3
  obtain ⟨k1, k2, k3, -⟩ := h1 (exFRow, 5) (by decide)
  exact ⟨k1, k2, k3⟩

/-! ### Helper lemmas about the merge step -/

theorem insLe_perm {α : Type} (le : α → α → Bool) (a : α) :
    ∀ l : List α, (insLe le a l).Perm (a :: l) := by
  intro l
  induction l with
  | nil => exact List.Perm.refl _
  | cons b bs ih =>
    simp only [insLe]
    split_ifs
    · exact List.Perm.refl _
    · exact List.Perm.trans (List.Perm.cons b ih) (List.Perm.swap a b bs)

theorem sortBy_perm {α : Type} (le : α → α → Bool) :
    ∀ l : List α, (sortBy le l).Perm l := by
  intro l
  induction l with
  | nil => exact List.Perm.refl _
  | cons a t ih =>
    simp only [sortBy, List.foldr_cons]
    exact List.Perm.trans (insLe_perm le a _) (List.Perm.cons a ih)

theorem intRange_mem {a b x : Int} : x ∈ intRange a b ↔ a ≤ x ∧ x < b := by
  unfold intRange
  simp only [List.mem_map, List.mem_range]
  constructor
  · rintro ⟨i, hi, rfl⟩
    omega
  · rintro ⟨h1, h2⟩
    exact ⟨(x - a).toNat, by omega, by omega⟩

theorem dTaskRows_horizon {O : Oracles} {dcfg : DCfg} {t : FTable}
    {anom : List ARow} {cym : String} {k_cut h : Int} {co : String} {rc : Rec}
    (hmem : rc ∈ dTaskRows O dcfg t anom cym k_cut h co) :
    rc.horizon = h ∧ rc.model = "ridge_direct" := by
  simp only [dTaskRows] at hmem
  split_ifs at hmem
  · exact absurd hmem (List.not_mem_nil rc)
  · exact absurd hmem (List.not_mem_nil rc)
  · exact absurd hmem (List.not_mem_nil rc)
  · exact absurd hmem (List.not_mem_nil rc)
  · rcases hL : lookupA anom co (k_cut + h) with _ | srow
    · simp only [hL] at hmem
      exact absurd hmem (List.not_mem_nil rc)
    · simp only [hL] at hmem
      rcases hx : ((dfcOf t co).filter (fun r => keyOfF r == k_cut)).head? with _ | xr
      · simp only [hx] at hmem
        exact absurd hmem (List.not_mem_nil rc)
      · simp only [hx] at hmem
        by_cases hv : ((useColsOf t (dTrain0 t co k_cut h)).map (getCol xr)).any
            Option.isNone = true
        · rw [if_pos hv] at hmem
          exact absurd hmem (List.not_mem_nil rc)
        · rw [if_neg hv] at hmem
          rcases List.mem_singleton.mp hmem with rfl
          exact ⟨rfl, rfl⟩

theorem directRows_band {O : Oracles} {dcfg : DCfg} {t : FTable}
    {anom : List ARow} {HMAX : Nat} {cuts : List Cut} {rc : Rec}
    (hmem : rc ∈ directRows O dcfg t anom HMAX cuts) :
    dcfg.h_start ≤ rc.horizon ∧ rc.horizon ≤ dcfg.h_end := by
  unfold directRows at hmem
  rcases List.mem_flatten.mp hmem with ⟨l1, hl1, hm1⟩
  rcases List.mem_map.mp hl1 with ⟨cut, -, rfl⟩
  rcases List.mem_flatten.mp hm1 with ⟨l2, hl2, hm2⟩
  rcases List.mem_map.mp hl2 with ⟨co, -, rfl⟩
  rcases List.mem_flatten.mp hm2 with ⟨l3, hl3, hm3⟩
  rcases List.mem_map.mp hl3 with ⟨h, hh, rfl⟩
  obtain ⟨hhor, -⟩ := dTaskRows_horizon hm3
  obtain ⟨hlo, hhi⟩ := intRange_mem.mp hh
  rw [hhor]
  constructor
  · exact hlo
  · have : h ≤ min dcfg.h_end (HMAX : Int) := by omega
    omega

/-- C7.  Merging the direct mid-horizon output into a base forecast table:
the merged rows outside the `[h_start, h_end]` band are exactly (a
permutation of — the merge re-sorts) the base rows outside the band, with
identical field values; inside the band the merged rows are exactly the
direct-mode rows; and a (country, cutoff, horizon) in the band for which
the direct mode produced nothing is absent from the merged table. -/
theorem C7_merge_replaces_band (O : Oracles) (dcfg : DCfg) (t : FTable)
    (anom : List ARow) (HMAX : Nat) (cuts : List Cut) (base : List Rec) :
    ((mergeForecasts dcfg base (directRows O dcfg t anom HMAX cuts)).filter
        (fun rc => decide (rc.horizon < dcfg.h_start) || decide (dcfg.h_end < rc.horizon))).Perm
      (base.filter
        (fun rc => decide (rc.horizon < dcfg.h_start) || decide (dcfg.h_end < rc.horizon))) ∧
    ((mergeForecasts dcfg base (directRows O dcfg t anom HMAX cuts)).filter
        (fun rc => decide (dcfg.h_start ≤ rc.horizon) && decide (rc.horizon ≤ dcfg.h_end))).Perm
      (directRows O dcfg t anom HMAX cuts) ∧
    (∀ (co cym : String) (h : Int), dcfg.h_start ≤ h → h ≤ dcfg.h_end →
      (∀ rc ∈ directRows O dcfg t anom HMAX cuts,
        ¬(rc.country = co ∧ rc.cutoff_ym = cym ∧ rc.horizon = h)) →
      ∀ rc ∈ mergeForecasts dcfg base (directRows O dcfg t anom HMAX cuts),
        ¬(rc.country = co ∧ rc.cutoff_ym = cym ∧ rc.horizon = h)) := by
  have hperm : (mergeForecasts dcfg base (directRows O dcfg t anom HMAX cuts)).Perm
      ((base.filter
        (fun rc => decide (rc.horizon < dcfg.h_start) || decide (dcfg.h_end < rc.horizon))) ++
        directRows O dcfg t anom HMAX cuts) :=
    sortBy_perm recLe _
  have hkeep : ∀ rc ∈ base.filter
      (fun rc => decide (rc.horizon < dcfg.h_start) || decide (dcfg.h_end < rc.horizon)),
      (decide (rc.horizon < dcfg.h_start) || decide (dcfg.h_end < rc.horizon)) = true := by
    intro rc hrc
    exact (List.mem_filter.mp hrc).2
  have hmid : ∀ rc ∈ directRows O dcfg t anom HMAX cuts,
      (decide (dcfg.h_start ≤ rc.horizon) && decide (rc.horizon ≤ dcfg.h_end)) = true := by
    intro rc hrc
    obtain ⟨h1, h2⟩ := directRows_band hrc
    simp [h1, h2]
  refine ⟨?_, ?_, ?_⟩
  · refine (hperm.filter _).trans ?_
    rw [List.filter_append]
    have h2 : (directRows O dcfg t anom HMAX cuts).filter
        (fun rc => decide (rc.horizon < dcfg.h_start) || decide (dcfg.h_end < rc.horizon)) = [] := by
      rw [List.filter_eq_nil_iff]
      intro rc hrc
      obtain ⟨hb1, hb2⟩ := directRows_band hrc
      simp only [Bool.or_eq_true, decide_eq_true_eq, not_or, not_lt]
      exact ⟨hb1, hb2⟩
    rw [h2, List.append_nil, List.filter_filter]
    have : ∀ rc : Rec,
        ((decide (rc.horizon < dcfg.h_start) || decide (dcfg.h_end < rc.horizon)) &&
         (decide (rc.horizon < dcfg.h_start) || decide (dcfg.h_end < rc.horizon))) =
        (decide (rc.horizon < dcfg.h_start) || decide (dcfg.h_end < rc.horizon)) := by
      intro rc
      exact Bool.and_self _
    rw [List.filter_congr (fun rc _ => this rc)]
  · refine (hperm.filter _).trans ?_
    rw [List.filter_append]
    have h1 : (base.filter
        (fun rc => decide (rc.horizon < dcfg.h_start) || decide (dcfg.h_end < rc.horizon))).filter
        (fun rc => decide (dcfg.h_start ≤ rc.horizon) && decide (rc.horizon ≤ dcfg.h_end)) = [] := by
      rw [List.filter_eq_nil_iff]
      intro rc hrc
      have := (List.mem_filter.mp hrc).2
      simp only [Bool.or_eq_true, decide_eq_true_eq] at this
      simp only [Bool.and_eq_true, decide_eq_true_eq, not_and, not_le]
      intro hge
      rcases this with hlt | hgt
      · omega
      · omega
    rw [h1, List.nil_append]
    rw [List.filter_eq_self.mpr hmid]
  · intro co cym h hh1 hh2 habsent rc hrc hcon
    have hrc2 := hperm.mem_iff.mp hrc
    rcases List.mem_append.mp hrc2 with hk | hm
    · have := (List.mem_filter.mp hk).2
      simp only [Bool.or_eq_true, decide_eq_true_eq] at this
      obtain ⟨-, -, hhor⟩ := hcon
      rcases this with hlt | hgt
      · omega
      · omega
    · exact habsent rc hm hcon

theorem C7_merge_replaces_band_witness :
    ((mergeForecasts exDCfg [exBaseRec] (directRows exO exDCfg exT [] 2 [exCut])).filter
        (fun rc => decide (rc.horizon < exDCfg.h_start) || decide (exDCfg.h_end < rc.horizon))).Perm
      ([exBaseRec].filter
        (fun rc => decide (rc.horizon < exDCfg.h_start) || decide (exDCfg.h_end < rc.horizon))) := by
  exact (C7_merge_replaces_band exO exDCfg exT [] 2 [exCut] [exBaseRec]).1

/-! ### A generator for gap-free single-country series, and the C1 lemmas -/

/-- The month-`i` row of a gap-free series starting at TimeKey `k0`. -/
theorem ym_roundtrip (k : Int) : ym_to_key (key_to_ym k).1 (key_to_ym k).2 = k := by
  unfold ym_to_key key_to_ym
  omega

theorem keyOfA_mkRow (co : String) (k0 : Int) (vals : List (Option ℚ)) (i : Nat) :
    keyOfA (mkRow co k0 vals i) = k0 + (i : Int) := by
  unfold keyOfA mkRow
  exact ym_roundtrip _

theorem mkSeries_length (co : String) (k0 : Int) (vals : List (Option ℚ)) :
    (mkSeries co k0 vals).length = vals.length := by
  simp [mkSeries]

theorem mkSeries_get? (co : String) (k0 : Int) (vals : List (Option ℚ)) (i : Nat) :
    (mkSeries co k0 vals).get? i =
      if i < vals.length then some (mkRow co k0 vals i) else none := by
  unfold mkSeries
  by_cases hi : i < vals.length
  · rw [if_pos hi]
    rw [List.get?_map, List.get?_range hi]
    rfl
  · rw [if_neg hi]
    rw [List.get?_map, List.get?_eq_none.mpr (by simpa using Nat.le_of_not_lt hi)]
    rfl

theorem mkSeries_getD (co : String) (k0 : Int) (vals : List (Option ℚ)) (i : Nat)
    (hi : i < vals.length) :
    (mkSeries co k0 vals).getD i dfltARow = mkRow co k0 vals i := by
  unfold List.getD
  rw [mkSeries_get?, if_pos hi]
  rfl

theorem chain'_map_range {α : Type} (R : α → α → Prop) (f : Nat → α)
    (hf : ∀ i, R (f i) (f (i + 1))) :
    ∀ (n a : Nat), List.Chain' R ((List.range' a n).map f) := by
  intro n
  induction n with
  | zero => intro a; simp
  | succ n ih =>
    intro a
    rw [List.range'_succ, List.map_cons]
    cases n with
    | zero => simp
    | succ m =>
      rw [List.range'_succ, List.map_cons]
      refine List.chain'_cons.mpr ⟨hf a, ?_⟩
      have := ih (a + 1)
      rwa [List.range'_succ, List.map_cons] at this

theorem ymLe_mkRow (co : String) (k0 : Int) (vals : List (Option ℚ)) (i : Nat) :
    ymLe (mkRow co k0 vals i) (mkRow co k0 vals (i + 1)) = true := by
  simp only [ymLe, mkRow, Bool.or_eq_true, decide_eq_true_eq, Bool.and_eq_true,
    beq_iff_eq, key_to_ym]
  omega

theorem sortBy_chain_id {α : Type} (le : α → α → Bool) :
    ∀ l : List α, List.Chain' (fun a b => le a b = true) l → sortBy le l = l := by
  intro l
  induction l with
  | nil => intro _; rfl
  | cons a t ih =>
    intro hch
    have ht : sortBy le t = t := ih hch.tail
    simp only [sortBy, List.foldr_cons]
    have hst : List.foldr (insLe le) [] t = t := ht
    rw [hst]
    cases t with
    | nil => rfl
    | cons b bs =>
      have hab : le a b = true := (List.chain'_cons.mp hch).1
      simp [insLe, hab]

theorem mkSeries_sort_id (co : String) (k0 : Int) (vals : List (Option ℚ)) :
    sortBy ymLe (mkSeries co k0 vals) = mkSeries co k0 vals := by
  apply sortBy_chain_id
  unfold mkSeries
  rw [List.range_eq_range']
  exact chain'_map_range (fun a b => ymLe a b = true) (mkRow co k0 vals)
    (fun i => ymLe_mkRow co k0 vals i) vals.length 0

theorem olag_mkSeries (co : String) (k0 : Int) (vals : List (Option ℚ))
    (i n : Nat) (hi : i < vals.length) :
    olag (mkSeries co k0 vals) i n = valAt vals k0 (k0 + (i : Int) - (n : Int)) := by
  unfold olag valAt
  by_cases hn : n ≤ i
  · rw [if_pos hn, mkSeries_get?, if_pos (by omega : i - n < vals.length)]
    have hidx : (k0 + (i : Int) - (n : Int) - k0).toNat = i - n := by omega
    rw [if_pos (by constructor <;> omega)]
    rw [hidx]
    rfl
  · rw [if_neg hn, if_neg (by omega)]

theorem lagWindow_mkSeries (co : String) (k0 : Int) (vals : List (Option ℚ))
    (i n : Nat) (hi : i < vals.length) :
    lagWindow (mkSeries co k0 vals) i n =
      (List.range n).map
        (fun (j : Nat) => valAt vals k0 (k0 + (i : Int) - (n : Int) + (j : Int))) := by
  unfold lagWindow
  apply List.map_congr_left
  intro j hj
  have hjn : j < n := List.mem_range.mp hj
  rw [olag_mkSeries co k0 vals i (n - j) hi]
  have : k0 + (i : Int) - ((n - j : Nat) : Int) = k0 + (i : Int) - (n : Int) + (j : Int) := by
    omega
  rw [this]

theorem rollOf_mkSeries (co : String) (k0 : Int) (vals : List (Option ℚ))
    (i n : Nat) (hi : i < vals.length) :
    rollOf (mkSeries co k0 vals) i n = specWin vals k0 (k0 + (i : Int)) n := by
  unfold rollOf specWin
  rw [lagWindow_mkSeries co k0 vals i n hi]

theorem target_mkSeries (O : Oracles) (co : String) (k0 : Int)
    (vals : List (Option ℚ)) (i : Nat) (hi : i < vals.length) (r : ARow) :
    (featAt O (mkSeries co k0 vals) i r).target =
      valAt vals k0 (k0 + (i : Int) + 1) := by
  unfold featAt valAt
  simp only
  by_cases hn : i + 1 < vals.length
  · rw [mkSeries_get?, if_pos hn]
    have hidx : (k0 + (i : Int) + 1 - k0).toNat = i + 1 := by omega
    rw [if_pos (by constructor <;> omega)]
    rw [hidx]
    rfl
  · rw [mkSeries_get?, if_neg hn, if_neg (by omega)]
    rfl

theorem featAt_mkSeries_spec (O : Oracles) (co : String) (k0 : Int)
    (vals : List (Option ℚ)) (i : Nat) (hi : i < vals.length) :
    keyOfF (featAt O (mkSeries co k0 vals) i (mkRow co k0 vals i)) = k0 + (i : Int) ∧
    (featAt O (mkSeries co k0 vals) i (mkRow co k0 vals i)).target =
      valAt vals k0 (k0 + (i : Int) + 1) ∧
    (featAt O (mkSeries co k0 vals) i (mkRow co k0 vals i)).anom_lag1 =
      valAt vals k0 (k0 + (i : Int) - 1) ∧
    (featAt O (mkSeries co k0 vals) i (mkRow co k0 vals i)).anom_lag12 =
      valAt vals k0 (k0 + (i : Int) - 12) ∧
    (featAt O (mkSeries co k0 vals) i (mkRow co k0 vals i)).anom_lag24 =
      valAt vals k0 (k0 + (i : Int) - 24) ∧
    (featAt O (mkSeries co k0 vals) i (mkRow co k0 vals i)).roll_mean_3 =
      (specWin vals k0 (k0 + (i : Int)) 3).map omean ∧
    (featAt O (mkSeries co k0 vals) i (mkRow co k0 vals i)).roll_std_3 =
      (specWin vals k0 (k0 + (i : Int)) 3).map O.stdev ∧
    (featAt O (mkSeries co k0 vals) i (mkRow co k0 vals i)).roll_mean_12 =
      (specWin vals k0 (k0 + (i : Int)) 12).map omean := by
  refine ⟨?_, target_mkSeries O co k0 vals i hi (mkRow co k0 vals i), ?_, ?_, ?_, ?_, ?_, ?_⟩
  · show ym_to_key (mkRow co k0 vals i).year (mkRow co k0 vals i).month = k0 + (i : Int)
    exact keyOfA_mkRow co k0 vals i
  · show olag (mkSeries co k0 vals) i 1 = _
    rw [olag_mkSeries co k0 vals i 1 hi]
    norm_num
  · show olag (mkSeries co k0 vals) i 12 = _
    rw [olag_mkSeries co k0 vals i 12 hi]
    norm_num
  · show olag (mkSeries co k0 vals) i 24 = _
    rw [olag_mkSeries co k0 vals i 24 hi]
    norm_num
  · show (rollOf (mkSeries co k0 vals) i 3).map omean = _
    rw [rollOf_mkSeries co k0 vals i 3 hi]
  · show (rollOf (mkSeries co k0 vals) i 3).map O.stdev = _
    rw [rollOf_mkSeries co k0 vals i 3 hi]
  · show (rollOf (mkSeries co k0 vals) i 12).map omean = _
    rw [rollOf_mkSeries co k0 vals i 12 hi]

theorem mem_rows_mkSeries {O : Oracles} {co : String} {k0 : Int}
    {vals : List (Option ℚ)} {dropOpt : Bool} {r : FRow}
    (hr : r ∈ (build_features O (mkSeries co k0 vals) dropOpt).rows) :
    ∃ i : Nat, i < vals.length ∧
      r = featAt O (mkSeries co k0 vals) i (mkRow co k0 vals i) := by
  unfold build_features at hr
  simp only at hr
  have hr1 := (List.mem_filter.mp hr).1
  rcases List.mem_flatten.mp hr1 with ⟨blk, hblk, hrblk⟩
  rcases List.mem_map.mp hblk with ⟨c2, hc2, rfl⟩
  have hc2co : c2 = co := by
    have hmem := List.mem_dedup.mp hc2
    rcases List.mem_map.mp hmem with ⟨row, hrow, rfl⟩
    rcases List.mem_map.mp hrow with ⟨j, -, rfl⟩
    rfl
  rw [hc2co] at hrblk
  have hfilter : (mkSeries co k0 vals).filter (fun row => row.country == co) =
      mkSeries co k0 vals := by
    rw [List.filter_eq_self]
    intro row hrow
    rcases List.mem_map.mp hrow with ⟨j, -, rfl⟩
    simp [mkRow]
  rw [hfilter] at hrblk
  simp only [buildCountry, mkSeries_sort_id] at hrblk
  rcases List.mem_map.mp hrblk with ⟨i, hi, rfl⟩
  have hi2 : i < vals.length := by
    have := List.mem_range.mp hi
    rwa [mkSeries_length] at this
  exact ⟨i, hi2, by rw [mkSeries_getD co k0 vals i hi2]⟩

theorem trainFinal_sub {t : FTable} {co : String} {c : Int} {r : FRow}
    (hr : r ∈ trainFinal t co c) :
    r ∈ t.rows ∧ keyOfF r ≤ c ∧ r.target.isSome := by
  unfold trainFinal trainEligible at hr
  have h1 := List.mem_filter.mp hr
  have h2 := List.mem_filter.mp h1.1
  have h3 : r ∈ t.rows.filter (fun row => row.country == co) := by
    have := h2.1
    unfold dfcOf at this
    exact (sortBy_perm fkLe _).mem_iff.mp this
  exact ⟨(List.mem_filter.mp h3).1, of_decide_eq_true h2.2, h1.2⟩

/-- C1 (amended).  Recursive-mode training at cutoff `c`: every selected
training row has TimeKey ≤ c (first conjunct, any feature table), and over
a gap-free single-country series every selected row's features derive from
series values strictly before its own TimeKey — lag `n` is the stored value
at TimeKey − n and each rolling statistic is a function of the values at
TimeKeys −3..−1 (resp. −12..−1) — while its regression target is the
stored anomaly at TimeKey + 1.  Hence the row at TimeKey = c contributes
the anomaly at c + 1, one month past the cutoff, to the fit: target
TimeKeys reach c + 1, not c (see the counterexample). -/
theorem C1_recursive_training_amended (O : Oracles) (co : String) (k0 : Int)
    (vals : List (Option ℚ)) (dropOpt : Bool) (c : Int) :
    (∀ (t : FTable) (co2 : String) (r : FRow), r ∈ trainFinal t co2 c → keyOfF r ≤ c) ∧
    (∀ r ∈ trainFinal (build_features O (mkSeries co k0 vals) dropOpt) co c,
      keyOfF r ≤ c ∧ keyOfF r + 1 ≤ c + 1 ∧
      r.target = valAt vals k0 (keyOfF r + 1) ∧
      r.anom_lag1 = valAt vals k0 (keyOfF r - 1) ∧
      r.anom_lag12 = valAt vals k0 (keyOfF r - 12) ∧
      r.anom_lag24 = valAt vals k0 (keyOfF r - 24) ∧
      r.roll_mean_3 = (specWin vals k0 (keyOfF r) 3).map omean ∧
      r.roll_std_3 = (specWin vals k0 (keyOfF r) 3).map O.stdev ∧
      r.roll_mean_12 = (specWin vals k0 (keyOfF r) 12).map omean) := by
  constructor
  · intro t co2 r hr
    exact (trainFinal_sub hr).2.1
  · intro r hr
    have hkey : keyOfF r ≤ c := (trainFinal_sub hr).2.1
    have hrow := (trainFinal_sub hr).1
    obtain ⟨i, hi, rfl⟩ := mem_rows_mkSeries hrow
    obtain ⟨hk, ht, h1, h12, h24, hm3, hs3, hm12⟩ := featAt_mkSeries_spec O co k0 vals i hi
    rw [hk] at hkey ⊢
    exact ⟨hkey, by omega, ht, h1, h12, h24, hm3, hs3, hm12⟩

theorem C1_recursive_training_counterexample :
    exVals1.take 13 = exVals2.take 13 ∧
    trainYv (build_features exO (mkSeries "A" 0 exVals1) false) "A" 12 ≠
      trainYv (build_features exO (mkSeries "A" 0 exVals2) false) "A" 12 := by
  decide

/-- C1 witness: the amended statement at the concrete 14-month series. -/
theorem C1_recursive_training_witness :
    keyOfF (featAt exO (mkSeries "A" 0 exVals1) 12 (mkRow "A" 0 exVals1 12)) ≤ 12 ∧
    (featAt exO (mkSeries "A" 0 exVals1) 12 (mkRow "A" 0 exVals1 12)).target =
      valAt exVals1 0
        (keyOfF (featAt exO (mkSeries "A" 0 exVals1) 12 (mkRow "A" 0 exVals1 12)) + 1) := by
  have hmem : featAt exO (mkSeries "A" 0 exVals1) 12 (mkRow "A" 0 exVals1 12) ∈
      trainFinal (build_features exO (mkSeries "A" 0 exVals1) false) "A" 12 := by
    have hlist : trainFinal (build_features exO (mkSeries "A" 0 exVals1) false) "A" 12 =
        [featAt exO (mkSeries "A" 0 exVals1) 12 (mkRow "A" 0 exVals1 12)] := rfl
    rw [hlist]
    exact List.mem_singleton.mpr rfl
  obtain ⟨-, h2⟩ := C1_recursive_training_amended exO "A" 0 exVals1 false 12
  obtain ⟨ha, -, hb, -⟩ := h2 _ hmem
  exact ⟨ha, hb⟩

